import Mathlib

/-!
Verification of the release-decision engine of the `zensical/mono` monorepo
release tool: semver bump rules, the conventional-commit change parser, the
scope resolver, changeset accumulation, changelog rendering, increment
propagation over the workspace dependency graph, and the Cargo manifest
rewrite. Each Rust function is shallowly embedded as an executable Lean
definition; strings are modelled as lists of characters (the code indexes
bytes, which coincides with characters on ASCII input).
-/

set_option maxRecDepth 4000

-- ===========================================================================
-- Increments (mono-project/src/project/version)
-- ===========================================================================

/-- Modelled from the spec: the `Increment` enum itself lives in
`mono-project/src/project/version/increment.rs`, which is not among the
provided sources (only its users are). Per the spec, an increment is one of
Major, Minor, Patch, totally ordered `Major > Minor > Patch`. -/
inductive Increment where
  | Patch : Increment
  | Minor : Increment
  | Major : Increment
deriving DecidableEq, Repr

/-- Rank of an optional increment: `None < Patch < Minor < Major`,
mirroring Rust's `Option<Increment>` ordering with `None` as bottom. -/
def irank : Option Increment → Nat
  | none => 0
  | some .Patch => 1
  | some .Minor => 2
  | some .Major => 3

/-- The maximum of two optional increments under `irank`, mirroring
`std::cmp::max` on `Option<Increment>`. -/
def imax (a b : Option Increment) : Option Increment :=
  if irank a < irank b then b else a

theorem irank_inj (a b : Option Increment) (h : irank a = irank b) : a = b := by
  cases a with
  | none => cases b with
    | none => rfl
    | some y => cases y <;> simp [irank] at h
  | some x => cases b with
    | none => cases x <;> simp [irank] at h
    | some y => cases x <;> cases y <;> simp [irank] at h <;> rfl

-- ===========================================================================
-- Versions and bump rules (mono-project/src/project/version/ext.rs)
-- ===========================================================================

/-- A semver version, as in the `semver` crate: numeric components are `u64`
(modelled as `Nat` bounded by `u64Max`), plus pre-release and build
metadata strings. -/
structure Version where
  major : Nat
  minor : Nat
  patch : Nat
  pre : String
  build : String
deriving DecidableEq, Repr

/-- Largest value of a Rust `u64`. -/
def u64Max : Nat := 2 ^ 64 - 1

/-- Rust `u64::saturating_add(1)`. -/
def satSucc (x : Nat) : Nat := min (x + 1) u64Max

/-- `VersionExt::bump` from `mono-project/src/project/version/ext.rs`:
the next version after applying the given increment, clearing pre-release
and build metadata, with saturating arithmetic. -/
def Version.bump (v : Version) (increment : Increment) : Version :=
  let w :=
    match v.major, v.minor, increment with
    | 0, 0, _ => { v with patch := satSucc v.patch }
    | 0, _, .Major => { v with minor := satSucc v.minor, patch := 0 }
    | 0, _, .Minor => { v with minor := satSucc v.minor, patch := 0 }
    | 0, _, .Patch => { v with patch := satSucc v.patch }
    | _, _, .Major => { v with major := satSucc v.major, minor := 0, patch := 0 }
    | _, _, .Minor => { v with minor := satSucc v.minor, patch := 0 }
    | _, _, .Patch => { v with patch := satSucc v.patch }
  { w with pre := "", build := "" }

/-- `VersionExt::min_bump`. -/
def Version.min_bump (v : Version) : Option Increment :=
  match v.major, v.minor with
  | 0, 0 => some .Patch
  | _, _ => none

/-- `VersionExt::max_bump`. -/
def Version.max_bump (v : Version) : Increment :=
  match v.major, v.minor with
  | 0, 0 => .Patch
  | 0, _ => .Minor
  | _, _ => .Major

/-- C1: `bump(v, i)` follows the table of spec §4.8: for `0.0.*` any
increment bumps the patch; for `0.y.*` with `y ≥ 1`, Major or Minor bump
the minor and reset the patch while Patch bumps the patch; for `x ≥ 1`,
Major bumps the major and resets minor and patch, Minor bumps the minor
and resets the patch, Patch bumps the patch. Pre-release and build
metadata are always cleared, and component arithmetic saturates at
`u64::MAX` instead of overflowing. -/
theorem bump_follows_table (v : Version) (i : Increment) :
    (v.bump i).pre = "" ∧ (v.bump i).build = "" ∧
    (v.major = 0 → v.minor = 0 →
      v.bump i = ⟨0, 0, satSucc v.patch, "", ""⟩) ∧
    (v.major = 0 → 1 ≤ v.minor → (i = .Major ∨ i = .Minor) →
      v.bump i = ⟨0, satSucc v.minor, 0, "", ""⟩) ∧
    (v.major = 0 → 1 ≤ v.minor → i = .Patch →
      v.bump i = ⟨0, v.minor, satSucc v.patch, "", ""⟩) ∧
    (1 ≤ v.major → i = .Major →
      v.bump i = ⟨satSucc v.major, 0, 0, "", ""⟩) ∧
    (1 ≤ v.major → i = .Minor →
      v.bump i = ⟨v.major, satSucc v.minor, 0, "", ""⟩) ∧
    (1 ≤ v.major → i = .Patch →
      v.bump i = ⟨v.major, v.minor, satSucc v.patch, "", ""⟩) ∧
    ((v.bump i).major ≤ max v.major u64Max ∧
     (v.bump i).minor ≤ u64Max ⊔ v.minor ∧
     (v.bump i).patch ≤ u64Max ⊔ v.patch) := by
  obtain ⟨ma, mi, pa, pre, build⟩ := v
  cases ma <;> cases mi <;> cases i <;>
    simp_all [Version.bump, satSucc, u64Max]

/-- Witness for C1: `bump("0.4.2", Minor) = "0.5.0"`, and saturation at
`u64::MAX`: bumping the patch of `0.0.(2^64-1)` keeps it at `2^64-1`. -/
theorem bump_follows_table_witness :
    Version.bump ⟨0, 4, 2, "", ""⟩ .Minor = ⟨0, 5, 0, "", ""⟩ ∧
    Version.bump ⟨1, 2, 3, "rc1", "abc"⟩ .Patch = ⟨1, 2, 4, "", ""⟩ ∧
    Version.bump ⟨0, 0, u64Max, "", ""⟩ .Major = ⟨0, 0, u64Max, "", ""⟩ := by
  refine ⟨?_, ?_, ?_⟩
  · have h := bump_follows_table ⟨0, 4, 2, "", ""⟩ .Minor
    exact h.2.2.2.1 rfl (by norm_num) (Or.inr rfl)
  · have h := bump_follows_table ⟨1, 2, 3, "rc1", "abc"⟩ .Patch
    exact h.2.2.2.2.2.2.2.1 (by norm_num) rfl
  · have h := bump_follows_table ⟨0, 0, u64Max, "", ""⟩ .Major
    have h2 := h.2.2.1 rfl rfl
    rw [h2]
    simp [satSucc, u64Max]

-- ===========================================================================
-- Change parser (mono-changeset/src/changeset/change.rs, change/kind.rs)
-- ===========================================================================

/-- `Kind` from `mono-changeset/src/changeset/change/kind.rs`. -/
inductive Kind where
  | Feature : Kind
  | Fix : Kind
  | Performance : Kind
  | Refactor : Kind
  | Build : Kind
  | Docs : Kind
  | Style : Kind
  | Test : Kind
  | Chore : Kind
deriving DecidableEq, Repr

/-- `Error` from `mono-changeset/src/changeset/change/error.rs`, the parse
error variants of the change parser. -/
inductive ChangeError where
  | Format : ChangeError
  | Kind : ChangeError
  | Whitespace : ChangeError
  | Casing : ChangeError
  | Punctuation : ChangeError
  | Reference : ChangeError
deriving DecidableEq, Repr

/-- `Kind::from_str`: the exact lowercase keyword of each kind. -/
def Kind.from_str (v : List Char) : Except ChangeError Kind :=
  if v = "feature".toList then .ok .Feature
  else if v = "fix".toList then .ok .Fix
  else if v = "performance".toList then .ok .Performance
  else if v = "refactor".toList then .ok .Refactor
  else if v = "build".toList then .ok .Build
  else if v = "docs".toList then .ok .Docs
  else if v = "style".toList then .ok .Style
  else if v = "test".toList then .ok .Test
  else if v = "chore".toList then .ok .Chore
  else .error .Kind

/-- `Kind`'s `Display` implementation. -/
def Kind.display : Kind → List Char
  | .Feature => "feature".toList
  | .Fix => "fix".toList
  | .Performance => "performance".toList
  | .Refactor => "refactor".toList
  | .Build => "build".toList
  | .Docs => "docs".toList
  | .Style => "style".toList
  | .Test => "test".toList
  | .Chore => "chore".toList

/-- Rust `str::split_once(": ")`: split at the first occurrence of the
two-character separator `": "`. -/
def splitColonSpace : List Char → Option (List Char × List Char)
  | [] => none
  | [_] => none
  | a :: b :: rest =>
    if a = ':' ∧ b = ' ' then some ([], rest)
    else
      match splitColonSpace (b :: rest) with
      | none => none
      | some (x, y) => some (a :: x, y)

/-- Rust `str::split_once('!')`: split at the first `'!'`. -/
def splitBang : List Char → Option (List Char × List Char)
  | [] => none
  | a :: rest =>
    if a = '!' then some ([], rest)
    else
      match splitBang rest with
      | none => none
      | some (x, y) => some (a :: x, y)

/-- Rust `str::trim`: drop whitespace from both ends. -/
def trimC (v : List Char) : List Char :=
  ((v.dropWhile Char.isWhitespace).reverse.dropWhile Char.isWhitespace).reverse

/-- Rust `str::split_whitespace().next().unwrap_or("")`: the first
whitespace-delimited word, or the empty string. -/
def firstWord (v : List Char) : List Char :=
  (v.dropWhile Char.isWhitespace).takeWhile (fun c => !c.isWhitespace)

/-- Rust `str::parse::<u32>()` on a string of decimal digits: the value if
it fits in 32 bits, otherwise failure. -/
def parseU32 (ds : List Char) : Option Nat :=
  let n := ds.foldl (fun a c => a * 10 + (c.toNat - 48)) 0
  if n < 2 ^ 32 then some n else none

/-- Ordered insertion into a sorted duplicate-free list, modelling
`BTreeSet<u32>::insert`. -/
def insertSorted (x : Nat) (l : List Nat) : List Nat :=
  match l with
  | [] => [x]
  | a :: rest =>
    if x < a then x :: a :: rest
    else if x = a then a :: rest
    else a :: insertSorted x rest

/-- Rust slice `value[a..b]`. -/
def sliceC (v : List Char) (a b : Nat) : List Char := (v.drop a).take (b - a)

/-- Joining summary fragments with single spaces, modelling
`Vec<&str>::join(" ")`. -/
def joinSpace (parts : List (List Char)) : List Char :=
  List.intercalate [' '] parts

/-- Outcome of one iteration of the `extract` loop at position `end`:
either nothing happens (`continue`), or a reference `r` spanning `after`
digits is accepted, or the loop fails with the `Reference` error. -/
inductive ExtractStep where
  | skip : ExtractStep
  | accept : Nat → Nat → ExtractStep
  | fail : ExtractStep
deriving DecidableEq, Repr

/-- The branch structure of one iteration of the `extract` loop from
`mono-changeset/src/changeset/change.rs`: a `'#'` followed by at least one
digit and a non-digit is a candidate reference; at position > 0 it must be
wrapped as `(#N)`, which accepts it; any other wrapping fails. All
remaining branches `continue`. Rust's `char::is_numeric` is modelled by
`Char.isDigit`, which coincides on ASCII input. -/
def extractStep (v : List Char) (endIdx start : Nat) (h : endIdx < v.length) :
    ExtractStep :=
  if endIdx < start then .skip
  else if v.get ⟨endIdx, h⟩ = '#' then
    let rest := v.drop (endIdx + 1)
    match rest.findIdx? (fun c => !c.isDigit) with
    | none => .skip
    | some after =>
      if after > 0 then
        match parseU32 (rest.take after) with
        | none => .skip
        | some r =>
          if endIdx > 0 then
            if v.get? (endIdx - 1) = some '(' ∧
                v.get? (endIdx + after + 1) = some ')' then
              .accept r after
            else .fail
          else .skip
      else .skip
  else .skip

/-- The loop of `extract`: `endIdx` is the loop variable `end`; `start`,
`parts` and `refs` are the mutable state (`start`, `summary`,
`references`). On `accept`, the text before the `(` is pushed (trimmed)
and `start` moves past the `)`. The loop runs while `endIdx < v.length`;
`fuel` only bounds the recursion and never runs out when it starts at
least at `v.length - endIdx`. -/
def extractGo (v : List Char) (fuel endIdx start : Nat)
    (parts : List (List Char)) (refs : List Nat) :
    Except ChangeError (List Char × List Nat) :=
  match fuel with
  | 0 => .ok (joinSpace (parts ++ [trimC (v.drop start)]), refs)
  | fuel + 1 =>
    if h : endIdx < v.length then
      match extractStep v endIdx start h with
      | .skip => extractGo v fuel (endIdx + 1) start parts refs
      | .accept r after =>
        extractGo v fuel (endIdx + 1) (endIdx + after + 2)
          (parts ++ [trimC (sliceC v start (endIdx - 1))]) (insertSorted r refs)
      | .fail => .error .Reference
    else
      .ok (joinSpace (parts ++ [trimC (v.drop start)]), refs)

/-- `extract` from `mono-changeset/src/changeset/change.rs`: collect
`(#N)` references and return the cleaned summary together with the sorted
set of reference numbers. -/
def extract (v : List Char) : Except ChangeError (List Char × List Nat) :=
  extractGo v v.length 0 0 [] []

/-- `Change` from `mono-changeset/src/changeset/change.rs`. -/
structure Change where
  kind : Kind
  summary : List Char
  references : List Nat
  is_breaking : Bool
deriving DecidableEq, Repr

/-- Rust `summary.ends_with(['.', '!', '?', ',', ';', ':'])`. -/
def endsPunct (v : List Char) : Bool :=
  match v.getLast? with
  | some c => ['.', '!', '?', ',', ';', ':'].contains c
  | none => false

/-- The acronym test of `Change::from_str`: every alphabetic character of
the word is uppercase. Rust's Unicode `is_uppercase`/`is_alphabetic` are
modelled by `Char.isUpper`/`Char.isAlpha`, which coincide on ASCII. -/
def isAcronym (word : List Char) : Bool :=
  word.all (fun ch => !ch.isAlpha || ch.isUpper)

/-- The casing test of `Change::from_str`: when the summary starts with an
uppercase letter, its first word must be an acronym. -/
def casingOk (summary : List Char) : Bool :=
  match summary.head? with
  | some c => if c.isUpper then isAcronym (firstWord summary) else true
  | none => true

/-- The summary checks of `Change::from_str`, in source order: whitespace,
casing, punctuation, then reference extraction. -/
def Change.check (kind : Kind) (is_breaking : Bool) (summary : List Char) :
    Except ChangeError Change :=
  if summary ≠ trimC summary then .error .Whitespace
  else if casingOk summary = false then .error .Casing
  else if endsPunct summary then .error .Punctuation
  else
    match extract summary with
    | .error e => .error e
    | .ok (s, refs) => .ok ⟨kind, s, refs, is_breaking⟩

/-- `Change::from_str` from `mono-changeset/src/changeset/change.rs`:
split once on `": "`, detect `'!'` in the type token, parse the kind, then
run the summary checks. -/
def Change.from_str (v : List Char) : Except ChangeError Change :=
  match splitColonSpace v with
  | none => .error .Format
  | some (kindTok, summary) =>
    match splitBang kindTok with
    | some (k, _) =>
      match Kind.from_str k with
      | .error e => .error e
      | .ok kind => Change.check kind true summary
    | none =>
      match Kind.from_str kindTok with
      | .error e => .error e
      | .ok kind => Change.check kind false summary

/-- `Change::as_increment`. -/
def Change.as_increment (c : Change) : Option Increment :=
  match c.kind with
  | .Feature => if c.is_breaking then some .Major else some .Minor
  | .Fix => if c.is_breaking then some .Major else some .Patch
  | .Performance => if c.is_breaking then some .Major else some .Patch
  | .Refactor => if c.is_breaking then some .Major else some .Patch
  | _ => none

/-- Decimal digits of a number, as printed by Rust's `Display` for `u32`. -/
def natChars (n : Nat) : List Char := (toString n).toList

/-- `Change`'s `Display` implementation:
`<kind>[!]: <summary>[ (#n1, n2, ...)]`. -/
def Change.display (c : Change) : List Char :=
  c.kind.display ++ (if c.is_breaking then ['!'] else []) ++
    (": ").toList ++ c.summary ++
    (if c.references.isEmpty then [] else
      (" (").toList ++
        List.intercalate (", ").toList
          (c.references.map (fun r => '#' :: natChars r)) ++ [')'])

deriving instance DecidableEq for Except

-- ===========================================================================
-- Parser lemmas
-- ===========================================================================

theorem insertSorted_ne_nil (x : Nat) (l : List Nat) : insertSorted x l ≠ [] := by
  cases l with
  | nil => simp [insertSorted]
  | cons a rest =>
    simp only [insertSorted]
    split
    · simp
    · split <;> simp

theorem extractGo_refs_ne (v : List Char) (fuel : Nat) : ∀ (endIdx start : Nat)
    (parts : List (List Char)) (refs : List Nat) (s : List Char) (rs : List Nat),
    refs ≠ [] → extractGo v fuel endIdx start parts refs = .ok (s, rs) → rs ≠ [] := by
  induction fuel with
  | zero =>
    intro e st parts refs s rs hne h
    simp only [extractGo] at h
    injection h with h2
    injection h2 with _ h3
    exact h3 ▸ hne
  | succ fuel ih =>
    intro e st parts refs s rs hne h
    simp only [extractGo] at h
    by_cases hlt : e < v.length
    · rw [dif_pos hlt] at h
      cases hstep : extractStep v e st hlt with
      | skip => rw [hstep] at h; exact ih _ _ _ _ _ _ hne h
      | accept r after =>
        rw [hstep] at h
        exact ih _ _ _ _ _ _ (insertSorted_ne_nil r refs) h
      | fail => rw [hstep] at h; exact absurd h (by simp)
    · rw [dif_neg hlt] at h
      injection h with h2
      injection h2 with _ h3
      exact h3 ▸ hne

theorem extractGo_no_refs (v : List Char) (fuel : Nat) : ∀ (endIdx start : Nat)
    (parts : List (List Char)) (s : List Char),
    extractGo v fuel endIdx start parts [] = .ok (s, []) →
    s = joinSpace (parts ++ [trimC (v.drop start)]) := by
  induction fuel with
  | zero =>
    intro e st parts s h
    simp only [extractGo] at h
    injection h with h2
    injection h2 with h3 _
    exact h3.symm
  | succ fuel ih =>
    intro e st parts s h
    simp only [extractGo] at h
    by_cases hlt : e < v.length
    · rw [dif_pos hlt] at h
      cases hstep : extractStep v e st hlt with
      | skip => rw [hstep] at h; exact ih _ _ _ _ h
      | accept r after =>
        rw [hstep] at h
        exact absurd h (by
          intro hcon
          exact extractGo_refs_ne v fuel _ _ _ _ _ _ (insertSorted_ne_nil r []) hcon rfl)
      | fail => rw [hstep] at h; exact absurd h (by simp)
    · rw [dif_neg hlt] at h
      injection h with h2
      injection h2 with h3 _
      exact h3.symm

theorem joinSpace_single (x : List Char) : joinSpace [x] = x := by
  simp [joinSpace, List.intercalate, List.intersperse]

theorem kind_display_no_colon (k : Kind) : ':' ∉ k.display := by
  cases k <;> decide

theorem kind_display_no_bang (k : Kind) : '!' ∉ k.display := by
  cases k <;> decide

theorem kind_roundtrip (k : Kind) : Kind.from_str k.display = .ok k := by
  cases k <;> rfl

theorem splitColonSpace_append : ∀ (p : List Char), ':' ∉ p → ∀ s : List Char,
    splitColonSpace (p ++ ':' :: ' ' :: s) = some (p, s)
  | [], _, s => by simp [splitColonSpace]
  | [a], h, s => by
    have ha : ¬(a = ':' ∧ (':' : Char) = ' ') := by
      rintro ⟨rfl, -⟩; exact h (List.mem_singleton_self _)
    simp [splitColonSpace, ha]
  | a :: b :: q, h, s => by
    have ha : ¬(a = ':' ∧ b = ' ') := by
      rintro ⟨rfl, -⟩; exact h (List.mem_cons_self _ _)
    have ih := splitColonSpace_append (b :: q) (fun hm => h (List.mem_cons_of_mem a hm)) s
    simp only [List.cons_append, splitColonSpace, if_neg ha, List.append_eq] at ih ⊢
    rw [ih]

theorem splitBang_append : ∀ (p : List Char), '!' ∉ p → ∀ s : List Char,
    splitBang (p ++ '!' :: s) = some (p, s)
  | [], _, s => by simp [splitBang]
  | a :: q, h, s => by
    have ha : a ≠ '!' := by rintro rfl; exact h (List.mem_cons_self _ _)
    have ih := splitBang_append q (fun hm => h (List.mem_cons_of_mem a hm)) s
    simp only [List.cons_append, splitBang, if_neg ha, List.append_eq] at ih ⊢
    rw [ih]

theorem splitBang_none : ∀ (p : List Char), '!' ∉ p → splitBang p = none
  | [], _ => rfl
  | a :: q, h => by
    have ha : a ≠ '!' := by rintro rfl; exact h (List.mem_cons_self _ _)
    have ih := splitBang_none q (fun hm => h (List.mem_cons_of_mem a hm))
    simp only [splitBang, if_neg ha, ih]

theorem check_ok_elim (kind : Kind) (b : Bool) (s : List Char) (c : Change)
    (h : Change.check kind b s = .ok c) :
    trimC s = s ∧ casingOk s = true ∧ endsPunct s = false ∧
      extract s = .ok (c.summary, c.references) ∧ c.kind = kind ∧
      c.is_breaking = b := by
  unfold Change.check at h
  by_cases h1 : s ≠ trimC s
  · rw [if_pos h1] at h; exact absurd h (by simp)
  · rw [if_neg h1] at h
    push_neg at h1
    by_cases h2 : casingOk s = false
    · rw [if_pos h2] at h; exact absurd h (by simp)
    · rw [if_neg h2] at h
      by_cases h3 : endsPunct s = true
      · rw [if_pos h3] at h; exact absurd h (by simp)
      · rw [if_neg h3] at h
        cases he : extract s with
        | error e => rw [he] at h; exact absurd h (by simp)
        | ok pr =>
          obtain ⟨s2, refs⟩ := pr
          rw [he] at h
          injection h with h4
          subst h4
          exact ⟨h1.symm, by simpa using h2, by simpa using h3, by simpa using he,
            rfl, rfl⟩

theorem check_ok_intro (kind : Kind) (b : Bool) (s s2 : List Char)
    (refs : List Nat) (h1 : trimC s = s) (h2 : casingOk s = true)
    (h3 : endsPunct s = false) (h4 : extract s = .ok (s2, refs)) :
    Change.check kind b s = .ok ⟨kind, s2, refs, b⟩ := by
  unfold Change.check
  rw [if_neg (by simp [h1]), if_neg (by simp [h2]), if_neg (by simp [h3]), h4]

-- ===========================================================================
-- Parser claims
-- ===========================================================================

/-- C10: parsing `"fix: "` (a valid kind token, `": "`, and an empty
summary) succeeds with kind `Fix`, empty summary, no references, and
`is_breaking = false`: the parser imposes no non-emptiness requirement on
the summary, and all summary checks pass vacuously. -/
theorem empty_summary_parses :
    Change.from_str ("fix: ".toList) = .ok ⟨.Fix, [], [], false⟩ := by decide

/-- C4 (code evaluation at the failing input): parsing `"fix: closes #5"`
succeeds and keeps the bare `#5` in the summary with no references,
instead of failing with the `Reference` error as specified: the extract
loop only treats `#<digits>` as a reference when a non-digit character
follows the digits, so a bare reference terminating the summary is never
inspected. -/
theorem bare_trailing_reference_accepted :
    Change.from_str ("fix: closes #5".toList) =
      .ok ⟨.Fix, "closes #5".toList, [], false⟩ := by decide

/-- C5 (counterexample): parsing `"fix: Summary."` fails with the `Casing`
error, not the `Punctuation` error claimed by the spec: the casing check
precedes the punctuation check in `Change::from_str`. -/
theorem punctuation_first_cx :
    Change.from_str ("fix: Summary.".toList) = .error .Casing ∧
    Change.from_str ("fix: Summary.".toList) ≠ .error .Punctuation := by decide

/-- C5 (amended): for a summary violating both the casing rule (starts
uppercase, first word not an acronym) and the punctuation rule (ends with
sentence-ending punctuation), the parser reports the `Casing` error: the
casing check triggers before the punctuation check. -/
theorem casing_checked_before_punctuation (s : List Char) (c : Char)
    (hh : s.head? = some c) (hu : c.isUpper = true)
    (ha : isAcronym (firstWord s) = false)
    (ht : trimC s = s) (hp : endsPunct s = true) :
    Change.from_str ("fix: ".toList ++ s) = .error .Casing := by
  have hv : ("fix: ".toList ++ s) = "fix".toList ++ ':' :: ' ' :: s := rfl
  have hkk : Kind.from_str ("fix".toList) = .ok .Fix := rfl
  rw [hv]
  unfold Change.from_str
  simp only [splitColonSpace_append "fix".toList (by decide) s,
    splitBang_none "fix".toList (by decide), hkk]
  unfold Change.check
  rw [if_neg (by simp [ht])]
  rw [if_pos (by simp [casingOk, hh, hu, ha])]

/-- Witness for C5: the summary `"Summary."` violates both rules, and the
parser reports `Casing` on `"fix: Summary."`. -/
theorem casing_checked_before_punctuation_witness :
    endsPunct ("Summary.".toList) = true ∧
    Change.from_str ("fix: ".toList ++ "Summary.".toList) = .error .Casing :=
  ⟨by decide, casing_checked_before_punctuation ("Summary.".toList) 'S'
    (by decide) (by decide) (by decide) (by decide) (by decide)⟩

/-- C3 (counterexample): the round-trip fails for a change with two
references: `"fix: a (#1) (#2)"` parses successfully (references `[1, 2]`),
but its display form `"fix: a   (#1, #2)"` prints the references as a
single parenthesized list, which the parser rejects with the `Reference`
error. -/
theorem display_roundtrip_two_references_cx :
    Change.from_str ("fix: a (#1) (#2)".toList) =
      .ok ⟨.Fix, "a  ".toList, [1, 2], false⟩ ∧
    Change.from_str (Change.display ⟨.Fix, "a  ".toList, [1, 2], false⟩) =
      .error .Reference := by decide

/-- C3 (amended): for every string that parses successfully into a change
with no references, parsing the display form succeeds and yields an equal
change. With one or more references the display form either fails to
re-parse (two or more references are printed as a single parenthesized
list, which the parser rejects) or re-parses with a different summary
(re-extraction appends a trailing space). -/
theorem display_roundtrip_no_references (v : List Char) (c : Change)
    (h : Change.from_str v = .ok c) (hr : c.references = []) :
    Change.from_str c.display = .ok c := by
  unfold Change.from_str at h
  cases hsp : splitColonSpace v with
  | none => rw [hsp] at h; exact absurd h (by simp)
  | some kt =>
    obtain ⟨kindTok, summary⟩ := kt
    simp only [hsp] at h
    have main : ∀ (kind : Kind) (b : Bool), Change.check kind b summary = .ok c →
        Change.from_str c.display = .ok c := by
      intro kind b hchk
      obtain ⟨ht, hcase, hpunct, hex, hkind, hbrk⟩ := check_ok_elim _ _ _ _ hchk
      have hex2 : extract summary = .ok (c.summary, []) := by rw [hex, hr]
      have hsum : c.summary = summary := by
        have h5 := extractGo_no_refs summary summary.length 0 0 [] c.summary hex2
        simpa [joinSpace_single, ht] using h5
      have hex3 : extract summary = .ok (summary, c.references) := by
        rw [hex, hsum]
      cases b with
      | false =>
        have hd2 : c.display = kind.display ++ ':' :: ' ' :: summary := by
          simp only [Change.display, hr, hsum, hkind, hbrk]
          simp [List.append_assoc]
        rw [hd2]
        unfold Change.from_str
        simp only [splitColonSpace_append kind.display (kind_display_no_colon kind)
            summary,
          splitBang_none kind.display (kind_display_no_bang kind),
          kind_roundtrip kind]
        rw [check_ok_intro kind false summary summary c.references ht hcase hpunct hex3]
        cases c
        simp_all
      | true =>
        have hd2 : c.display = (kind.display ++ '!' :: []) ++ ':' :: ' ' :: summary := by
          simp only [Change.display, hr, hsum, hkind, hbrk]
          simp [List.append_assoc]
        have hnc : ':' ∉ kind.display ++ '!' :: [] := by
          intro hm
          rcases List.mem_append.mp hm with hm2 | hm2
          · exact kind_display_no_colon kind hm2
          · simp at hm2
        rw [hd2]
        unfold Change.from_str
        simp only [splitColonSpace_append _ hnc summary,
          splitBang_append kind.display (kind_display_no_bang kind) [],
          kind_roundtrip kind]
        rw [check_ok_intro kind true summary summary c.references ht hcase hpunct hex3]
        cases c
        simp_all
    cases hsb : splitBang kindTok with
    | some kp =>
      obtain ⟨k, rest⟩ := kp
      simp only [hsb] at h
      cases hk : Kind.from_str k with
      | error e => simp only [hk] at h; exact absurd h (by simp)
      | ok kind => simp only [hk] at h; exact main kind true h
    | none =>
      simp only [hsb] at h
      cases hk : Kind.from_str kindTok with
      | error e => simp only [hk] at h; exact absurd h (by simp)
      | ok kind => simp only [hk] at h; exact main kind false h

/-- Witness for C3: the change parsed from `"fix: summary"` has no
references and survives the display round-trip unchanged. -/
theorem display_roundtrip_no_references_witness :
    Change.from_str (Change.display ⟨.Fix, "summary".toList, [], false⟩) =
      .ok ⟨.Fix, "summary".toList, [], false⟩ :=
  display_roundtrip_no_references ("fix: summary".toList)
    ⟨.Fix, "summary".toList, [], false⟩ (by decide) rfl

-- ===========================================================================
-- Scope resolver (mono-changeset/src/changeset/scopes.rs, scopes/builder.rs)
-- ===========================================================================

/-- Component-wise prefix test on paths (paths are modelled as their lists
of forward-slash separated components, as seen by the glob machinery). -/
def isPre : List String → List String → Bool
  | [], _ => true
  | _ :: _, [] => false
  | a :: p, b :: q => a == b && isPre p q

/-- Whether the glob `p/**` built by `Builder::add` matches the file path
`q`: `p` must be a strict component prefix of `q` (the glob `p/**`
requires at least one further component after `p`). -/
def globMatch (p q : List String) : Bool :=
  isPre p q && decide (p.length < q.length)

/-- `Scopes` from `mono-changeset/src/changeset/scopes.rs`: the registered
`(path, name)` pairs in insertion order. The compiled `GlobSet` is
determined by the paths, scope `i` matching through the glob
`paths[i]/**`. -/
structure Scopes where
  paths : List (List String × String)

/-- `GlobSet::matches`: the indices of all scopes whose glob matches the
given path, in ascending order. -/
def Scopes.matchesIdx (S : Scopes) (q : List String) : List Nat :=
  (List.range S.paths.length).filter
    (fun i => globMatch (S.paths.getD i ([], "")).1 q)

/-- `path.components().count()` for scope `i`, the sort key of
`Scopes::get`. -/
def Scopes.key (S : Scopes) (i : Nat) : Nat :=
  (S.paths.getD i ([], "")).1.length

/-- Rust `Iterator::max_by_key`: the maximal element under `key`; on ties
the last one wins. -/
def maxFold (key : Nat → Nat) (l : List Nat) (acc : Option Nat) : Option Nat :=
  l.foldl (fun a i =>
    match a with
    | none => some i
    | some b => if key b ≤ key i then some i else some b) acc

/-- `Scopes::get`: the matching scope with the greatest number of path
components, or `none` when no glob matches. -/
def Scopes.get (S : Scopes) (q : List String) : Option Nat :=
  maxFold S.key (S.matchesIdx q) none

/-- Errors of the scope set builder. -/
inductive ScopesError where
  | PathAbsolute : ScopesError
  | PathExists : ScopesError
  | Glob : ScopesError
deriving DecidableEq, Repr

/-- `Builder::add` from `mono-changeset/src/changeset/scopes/builder.rs`:
reject duplicate paths, otherwise append the `(path, name)` pair. In the
component model every path is relative, so the `PathAbsolute` branch
cannot fire, and glob compilation of `path/**` never fails. -/
def Builder.add (b : List (List String × String)) (path : List String)
    (name : String) : Except ScopesError (List (List String × String)) :=
  if b.any (fun candidate => candidate.1 == path) then .error .PathExists
  else .ok (b ++ [(path, name)])

theorem maxFold_last_max (key : Nat → Nat) :
    ∀ (l : List Nat) (i : Nat), (∀ j ∈ l, j = i ∨ key j < key i) →
      maxFold key l (some i) = some i := by
  intro l
  induction l with
  | nil => intro i _; rfl
  | cons a rest ih =>
    intro i hdom
    rcases hdom a (List.mem_cons_self a rest) with rfl | hlt
    · simpa [maxFold] using ih a (fun j hj => hdom j (List.mem_cons_of_mem a hj))
    · have : ¬ key i ≤ key a := by omega
      simpa [maxFold, this] using ih i (fun j hj => hdom j (List.mem_cons_of_mem a hj))

theorem maxFold_dominant (key : Nat → Nat) :
    ∀ (l : List Nat) (i : Nat) (acc : Option Nat), i ∈ l →
      (∀ j ∈ l, j ≠ i → key j < key i) →
      (acc = none ∨ ∃ b, acc = some b ∧ key b < key i) →
      maxFold key l acc = some i := by
  intro l
  induction l with
  | nil => intro i acc hmem; exact absurd hmem (by simp)
  | cons a rest ih =>
    intro i acc hmem hdom hacc
    by_cases hai : a = i
    · subst hai
      have hstep : maxFold key (a :: rest) acc = maxFold key rest (some a) := by
        rcases hacc with rfl | ⟨b, rfl, hb⟩
        · rfl
        · have : key b ≤ key a := by omega
          simp [maxFold, this]
      rw [hstep]
      exact maxFold_last_max key rest a (fun j hj => by
        by_cases hji : j = a
        · exact Or.inl hji
        · exact Or.inr (hdom j (List.mem_cons_of_mem a hj) hji))
    · have hmem2 : i ∈ rest := by
        rcases List.mem_cons.mp hmem with h | h
        · exact absurd h.symm hai
        · exact h
      have hka : key a < key i := hdom a (List.mem_cons_self a rest) hai
      have hstep : ∃ b, maxFold key (a :: rest) acc = maxFold key rest (some b) ∧
          key b < key i := by
        rcases hacc with rfl | ⟨b, rfl, hb⟩
        · exact ⟨a, rfl, hka⟩
        · by_cases hle : key b ≤ key a
          · exact ⟨a, by simp [maxFold, hle], hka⟩
          · exact ⟨b, by simp [maxFold, hle], hb⟩
      obtain ⟨b, hstep, hkb⟩ := hstep
      rw [hstep]
      exact ih i (some b) hmem2 (fun j hj hji => hdom j (List.mem_cons_of_mem a hj) hji)
        (Or.inr ⟨b, rfl, hkb⟩)

theorem isPre_length_eq : ∀ (p1 p2 q : List String),
    isPre p1 q = true → isPre p2 q = true → p1.length = p2.length → p1 = p2 := by
  intro p1
  induction p1 with
  | nil => intro p2 q _ _ hlen; cases p2 <;> simp_all
  | cons a p ih =>
    intro p2 q h1 h2 hlen
    cases p2 with
    | nil => simp at hlen
    | cons b p2t =>
      cases q with
      | nil => simp [isPre] at h1
      | cons c qt =>
        simp only [isPre, Bool.and_eq_true, beq_iff_eq] at h1 h2
        obtain ⟨rfl, h1t⟩ := h1
        obtain ⟨rfl, h2t⟩ := h2
        have := ih p2t qt h1t h2t (by simpa using hlen)
        rw [this]

/-- C6: `Scopes::get` implements deepest-prefix-wins routing: membership
in the glob match set is exactly strict component-prefix matching; with no
match the result is `none`; when one matching scope strictly dominates all
other matchers in component count, it is returned; two matchers with equal
component count necessarily have the same path (so ties cannot arise among
distinct scope paths). In particular, with scopes added in order
`[("crates", "root"), ("crates/mono", "mono")]`, `get` resolves
`"crates/mono/src/lib.rs"` to index 1 and `"crates/other/x"` to index 0. -/
theorem scopes_get_deepest (S : Scopes) (q : List String) :
    (∀ i, i ∈ S.matchesIdx q ↔
      (i < S.paths.length ∧ globMatch (S.paths.getD i ([], "")).1 q = true)) ∧
    (S.matchesIdx q = [] → S.get q = none) ∧
    (∀ i ∈ S.matchesIdx q, (∀ j ∈ S.matchesIdx q, j ≠ i → S.key j < S.key i) →
      S.get q = some i) ∧
    (∀ i ∈ S.matchesIdx q, ∀ j ∈ S.matchesIdx q, S.key i = S.key j →
      (S.paths.getD i ([], "")).1 = (S.paths.getD j ([], "")).1) ∧
    Builder.add [] ["crates"] "root" = .ok [(["crates"], "root")] ∧
    Builder.add [(["crates"], "root")] ["crates", "mono"] "mono" =
      .ok [(["crates"], "root"), (["crates", "mono"], "mono")] ∧
    Scopes.get ⟨[(["crates"], "root"), (["crates", "mono"], "mono")]⟩
      ["crates", "mono", "src", "lib.rs"] = some 1 ∧
    Scopes.get ⟨[(["crates"], "root"), (["crates", "mono"], "mono")]⟩
      ["crates", "other", "x"] = some 0 := by
  refine ⟨?_, ?_, ?_, ?_, by decide, by decide, by decide, by decide⟩
  · intro i
    simp [Scopes.matchesIdx, List.mem_filter, List.mem_range]
  · intro h
    unfold Scopes.get
    rw [h]
    rfl
  · intro i hi hdom
    exact maxFold_dominant _ _ i none hi hdom (Or.inl rfl)
  · intro i hi j hj hkey
    have hgi : globMatch (S.paths.getD i ([], "")).1 q = true := by
      have := (List.mem_filter.mp hi).2
      simpa using this
    have hgj : globMatch (S.paths.getD j ([], "")).1 q = true := by
      have := (List.mem_filter.mp hj).2
      simpa using this
    simp only [globMatch, Bool.and_eq_true, decide_eq_true_eq] at hgi hgj
    exact isPre_length_eq _ _ q hgi.1 hgj.1 hkey

/-- Witness for C6: on the two-scope example, index 1 (path
`crates/mono`, 2 components) dominates index 0 (path `crates`,
1 component) for the path `crates/mono/src/lib.rs`, and `get` returns it. -/
theorem scopes_get_deepest_witness :
    Scopes.get ⟨[(["crates"], "root"), (["crates", "mono"], "mono")]⟩
      ["crates", "mono", "src", "lib.rs"] = some 1 :=
  ((scopes_get_deepest ⟨[(["crates"], "root"), (["crates", "mono"], "mono")]⟩
    ["crates", "mono", "src", "lib.rs"]).2.2.1) 1 (by decide) (by decide)

-- ===========================================================================
-- Changeset accumulation (mono-changeset/src/changeset.rs, revision.rs)
-- ===========================================================================

/-- The interface of a repository commit consumed by the changeset (spec
§6): single-line summary, delta paths (the `path()` of each file delta),
optional body, and the short commit id used by the changelog renderer. -/
structure Commit where
  summary : List Char
  deltas : List (List String)
  body : Option (List Char)
  shortId : String

/-- Rust `str::split_whitespace`, accumulator-based: maximal non-whitespace
runs, in order. -/
def splitWsGo : List Char → List Char → List (List Char)
  | [], cur => if cur = [] then [] else [cur.reverse]
  | c :: rest, cur =>
    if c.isWhitespace then
      if cur = [] then splitWsGo rest []
      else cur.reverse :: splitWsGo rest []
    else splitWsGo rest (c :: cur)

/-- Rust `str::split_whitespace`. -/
def splitWs (v : List Char) : List (List Char) := splitWsGo v []

/-- Rust `str::trim_matches(p)`: strip characters satisfying `p` from both
ends. -/
def trimMatches (p : Char → Bool) (v : List Char) : List Char :=
  ((v.dropWhile p).reverse.dropWhile p).reverse

/-- Rust `str::parse::<u32>()` on an arbitrary token: optional leading
`'+'`, then one or more decimal digits, value below `2^32`. -/
def parseU32R (ds : List Char) : Option Nat :=
  let digits := match ds with
    | '+' :: rest => rest
    | _ => ds
  if digits ≠ [] ∧ digits.all Char.isDigit then parseU32 digits else none

/-- `parse_issues` from `mono-changeset/src/changeset/revision.rs`: split
the body on whitespace, trim characters that are neither ASCII digits nor
`'#'` from both ends of each token, require a leading `'#'`, parse the
rest as `u32`, and collect into a sorted set. -/
def parse_issues (body : List Char) : List Nat :=
  (splitWs body).foldl (fun acc word =>
    match trimMatches (fun c => !c.isDigit && c != '#') word with
    | '#' :: rest =>
      match parseU32R rest with
      | some n => insertSorted n acc
      | none => acc
    | _ => acc) []

/-- `Revision` from `mono-changeset/src/changeset/revision.rs`. -/
structure Revision where
  commit : Commit
  change : Change
  scopes : List Nat
  issues : List Nat

/-- `Changeset` from `mono-changeset/src/changeset.rs`. -/
structure Changeset where
  scopes : Scopes
  revisions : List Revision
  increments : List (Option Increment)

/-- The changeset built by `Changeset::new`/`with_config` once the scope
set is in place: no revisions, and one unset increment slot per scope
(`vec![None; scopes.len()]`). -/
def Changeset.init (S : Scopes) : Changeset :=
  ⟨S, [], List.replicate S.paths.length none⟩

/-- `Changeset::add` from `mono-changeset/src/changeset/revision.rs`: if
the commit summary parses as a change, resolve every delta path to a scope
index (collected into a sorted set), lift each affected slot to the
maximum of itself and the change's increment, parse the body's issues, and
append the revision; otherwise the commit is silently ignored. -/
def Changeset.add (cs : Changeset) (commit : Commit) : Changeset :=
  match Change.from_str commit.summary with
  | .error _ => cs
  | .ok change =>
    let touched := (commit.deltas.filterMap cs.scopes.get).foldl
      (fun acc i => insertSorted i acc) []
    let increment := change.as_increment
    let increments := touched.foldl
      (fun l index => l.set index (imax (l.getD index none) increment))
      cs.increments
    { cs with
      revisions := cs.revisions ++
        [⟨commit, change, touched, (commit.body.map parse_issues).getD []⟩],
      increments := increments }

/-- The increment contributed by a commit: the parsed change's increment
when the summary is accepted, and bottom otherwise. -/
def incOf (c : Commit) : Option Increment :=
  match Change.from_str c.summary with
  | .ok change => change.as_increment
  | .error _ => none

theorem imax_idem (a i : Option Increment) : imax (imax a i) i = imax a i := by
  unfold imax
  by_cases h : irank a < irank i
  · simp [h]
  · simp [h]

theorem maxFold_mem (key : Nat → Nat) :
    ∀ (l : List Nat) (acc : Option Nat) (i : Nat),
      maxFold key l acc = some i → i ∈ l ∨ acc = some i := by
  intro l
  induction l with
  | nil => intro acc i h; exact Or.inr h
  | cons a rest ih =>
    intro acc i h
    cases acc with
    | none =>
      have hstep : maxFold key (a :: rest) none = maxFold key rest (some a) := rfl
      rw [hstep] at h
      rcases ih _ i h with hm | he
      · exact Or.inl (List.mem_cons_of_mem a hm)
      · injection he with he2
        exact Or.inl (he2 ▸ List.mem_cons_self a rest)
    | some b =>
      by_cases hle : key b ≤ key a
      · have hstep : maxFold key (a :: rest) (some b) = maxFold key rest (some a) := by
          simp [maxFold, hle]
        rw [hstep] at h
        rcases ih _ i h with hm | he
        · exact Or.inl (List.mem_cons_of_mem a hm)
        · injection he with he2
          exact Or.inl (he2 ▸ List.mem_cons_self a rest)
      · have hstep : maxFold key (a :: rest) (some b) = maxFold key rest (some b) := by
          simp [maxFold, hle]
        rw [hstep] at h
        rcases ih _ i h with hm | he
        · exact Or.inl (List.mem_cons_of_mem a hm)
        · exact Or.inr he

theorem scopes_get_lt (S : Scopes) (q : List String) (i : Nat)
    (h : S.get q = some i) : i < S.paths.length := by
  unfold Scopes.get at h
  rcases maxFold_mem S.key (S.matchesIdx q) none i h with hm | he
  · have := List.mem_filter.mp hm
    exact List.mem_range.mp this.1
  · exact absurd he (by simp)

theorem mem_insertSorted (s x : Nat) :
    ∀ (l : List Nat), s ∈ insertSorted x l ↔ s = x ∨ s ∈ l := by
  intro l
  induction l with
  | nil => simp [insertSorted]
  | cons a rest ih =>
    simp only [insertSorted]
    by_cases h1 : x < a
    · simp only [if_pos h1]
      simp
    · rw [if_neg h1]
      by_cases h2 : x = a
      · subst h2
        simp only [if_pos rfl]
        simp
      · rw [if_neg h2]
        simp only [List.mem_cons, ih]
        tauto

theorem mem_insertFold (s : Nat) :
    ∀ (xs : List Nat) (acc : List Nat),
      s ∈ xs.foldl (fun a i => insertSorted i a) acc ↔ s ∈ xs ∨ s ∈ acc := by
  intro xs
  induction xs with
  | nil => simp
  | cons x rest ih =>
    intro acc
    simp only [List.foldl_cons, ih, mem_insertSorted]
    constructor
    · rintro (h | h | h)
      · exact Or.inl (List.mem_cons_of_mem x h)
      · exact Or.inl (h ▸ List.mem_cons_self x rest)
      · exact Or.inr h
    · rintro (h | h)
      · rcases List.mem_cons.mp h with h2 | h2
        · exact Or.inr (Or.inl h2)
        · exact Or.inl h2
      · exact Or.inr (Or.inr h)

theorem getD_set_self (l : List (Option Increment)) (i : Nat) (v : Option Increment)
    (h : i < l.length) : (l.set i v).getD i none = v := by
  simp [List.getD, List.getElem?_set_self, h]

theorem getD_set_ne (l : List (Option Increment)) (i j : Nat) (v : Option Increment)
    (h : i ≠ j) : (l.set i v).getD j none = l.getD j none := by
  simp [List.getD, List.getElem?_set_ne, h]

theorem fold_set_spec (inc : Option Increment) (s : Nat) :
    ∀ (idxs : List Nat) (l : List (Option Increment)),
      (∀ i ∈ idxs, i < l.length) →
      ((idxs.foldl (fun l i => l.set i (imax (l.getD i none) inc)) l).getD s none
        = if s ∈ idxs then imax (l.getD s none) inc else l.getD s none) := by
  intro idxs
  induction idxs with
  | nil => intro l _; simp
  | cons i rest ih =>
    intro l hbound
    have hi : i < l.length := hbound i (List.mem_cons_self i rest)
    have hlen2 : ∀ j ∈ rest, j < (l.set i (imax (l.getD i none) inc)).length := by
      intro j hj
      rw [List.length_set]
      exact hbound j (List.mem_cons_of_mem i hj)
    simp only [List.foldl_cons]
    rw [ih _ hlen2]
    by_cases hsi : s = i
    · subst hsi
      rw [getD_set_self _ _ _ hi]
      by_cases hsr : s ∈ rest
      · rw [if_pos hsr, if_pos (List.mem_cons_self s rest), imax_idem]
      · rw [if_neg hsr, if_pos (List.mem_cons_self s rest)]
    · rw [getD_set_ne _ _ _ _ (fun h => hsi h.symm)]
      by_cases hsr : s ∈ rest
      · rw [if_pos hsr, if_pos (List.mem_cons_of_mem i hsr)]
      · rw [if_neg hsr, if_neg (by
          intro hm
          rcases List.mem_cons.mp hm with h | h
          · exact hsi h
          · exact hsr h)]

theorem fold_set_length (inc : Option Increment) :
    ∀ (idxs : List Nat) (l : List (Option Increment)),
      (idxs.foldl (fun l i => l.set i (imax (l.getD i none) inc)) l).length
        = l.length := by
  intro idxs
  induction idxs with
  | nil => intro l; rfl
  | cons i rest ih =>
    intro l
    simp only [List.foldl_cons]
    rw [ih, List.length_set]

theorem add_scopes_eq (cs : Changeset) (c : Commit) :
    (Changeset.add cs c).scopes = cs.scopes := by
  unfold Changeset.add
  cases Change.from_str c.summary <;> rfl

theorem add_length (cs : Changeset) (c : Commit) :
    (Changeset.add cs c).increments.length = cs.increments.length := by
  unfold Changeset.add
  cases Change.from_str c.summary with
  | error e => rfl
  | ok change => exact fold_set_length change.as_increment _ cs.increments

theorem add_getD (cs : Changeset) (c : Commit) (s : Nat)
    (hlen : cs.scopes.paths.length ≤ cs.increments.length) :
    (Changeset.add cs c).increments.getD s none =
      if (Change.from_str c.summary).isOk ∧ s ∈ c.deltas.filterMap cs.scopes.get
      then imax (cs.increments.getD s none) (incOf c)
      else cs.increments.getD s none := by
  unfold Changeset.add
  cases hp : Change.from_str c.summary with
  | error e =>
    rw [if_neg (by rintro ⟨hcon, -⟩; exact absurd hcon (by simp [Except.isOk, Except.toBool]))]
  | ok change =>
    simp only
    have hbound : ∀ i ∈ (c.deltas.filterMap cs.scopes.get).foldl
        (fun acc i => insertSorted i acc) [], i < cs.increments.length := by
      intro i hi
      rcases (mem_insertFold i _ _).mp hi with hm | hm
      · rcases List.mem_filterMap.mp hm with ⟨d, _, hget⟩
        exact lt_of_lt_of_le (scopes_get_lt _ _ _ hget) hlen
      · exact absurd hm (by simp)
    rw [fold_set_spec _ _ _ _ hbound]
    have hinc : incOf c = change.as_increment := by simp [incOf, hp]
    by_cases hmem : s ∈ c.deltas.filterMap cs.scopes.get
    · rw [if_pos ((mem_insertFold s _ _).mpr (Or.inl hmem)),
        if_pos ⟨by simp [Except.isOk, Except.toBool], hmem⟩, hinc]
    · rw [if_neg (fun hcon => by
        rcases (mem_insertFold s _ _).mp hcon with h | h
        · exact hmem h
        · simp at h), if_neg (fun hcon => hmem hcon.2)]

theorem foldl_add_spec (S : Scopes) :
    ∀ (commits : List Commit) (cs : Changeset), cs.scopes = S →
      S.paths.length ≤ cs.increments.length → ∀ (s : Nat),
      ((commits.foldl Changeset.add cs).increments.getD s none =
        (commits.filter (fun c => (Change.from_str c.summary).isOk &&
            decide (s ∈ c.deltas.filterMap S.get))).foldl
          (fun a c => imax a (incOf c)) (cs.increments.getD s none)) ∧
      (commits.foldl Changeset.add cs).increments.length = cs.increments.length := by
  intro commits
  induction commits with
  | nil => intro cs hS hlen s; exact ⟨rfl, rfl⟩
  | cons c rest ih =>
    intro cs hS hlen s
    have hlen1 : (Changeset.add cs c).increments.length = cs.increments.length :=
      add_length cs c
    have hS1 : (Changeset.add cs c).scopes = S := by rw [add_scopes_eq, hS]
    have hih := ih (Changeset.add cs c) hS1 (by omega) s
    have hgetD := add_getD cs c s (by rw [hS]; exact hlen)
    rw [hS] at hgetD
    simp only [List.foldl_cons]
    constructor
    · rw [hih.1]
      by_cases hpred : (Change.from_str c.summary).isOk ∧
          s ∈ c.deltas.filterMap S.get
      · rw [List.filter_cons_of_pos (by
          simp only [Bool.and_eq_true, decide_eq_true_eq]
          exact ⟨hpred.1, hpred.2⟩)]
        rw [List.foldl_cons]
        rw [hgetD, if_pos hpred]
      · rw [List.filter_cons_of_neg (by
          simp only [Bool.and_eq_true, decide_eq_true_eq]
          exact fun h => hpred h)]
        rw [hgetD, if_neg hpred]
    · rw [hih.2, hlen1]

theorem getD_replicate_none (n s : Nat) :
    (List.replicate n (none : Option Increment)).getD s none = none := by
  induction n generalizing s with
  | zero => simp
  | succ n ih =>
    cases s with
    | zero => simp [List.replicate]
    | succ s => simpa [List.replicate] using ih s

/-- C2: for any scope set and any sequence of `Changeset::add(commit)`
calls starting from a fresh changeset, the slot of scope `s` equals the
fold of the increment maximum (with unset as bottom) over exactly the
accepted commits (summary parses as a change) that touched a delta path
resolving to scope `s`; a scope touched by no accepted commit stays unset;
and every `add` preserves the invariant
`increments.len() == scopes.len()`. -/
theorem changeset_increments_are_max (S : Scopes) (commits : List Commit) (s : Nat) :
    ((commits.foldl Changeset.add (Changeset.init S)).increments.getD s none =
      (commits.filter (fun c => (Change.from_str c.summary).isOk &&
          decide (s ∈ c.deltas.filterMap S.get))).foldl
        (fun a c => imax a (incOf c)) none) ∧
    (commits.foldl Changeset.add (Changeset.init S)).increments.length =
      S.paths.length ∧
    ((∀ c ∈ commits, ¬((Change.from_str c.summary).isOk = true ∧
        s ∈ c.deltas.filterMap S.get)) →
      (commits.foldl Changeset.add (Changeset.init S)).increments.getD s none =
        none) ∧
    ∀ (cs : Changeset) (c : Commit),
      (Changeset.add cs c).increments.length = cs.increments.length := by
  have h := foldl_add_spec S commits (Changeset.init S) rfl
    (by simp [Changeset.init]) s
  have hinit : (Changeset.init S).increments.getD s none = none := by
    simp only [Changeset.init]
    exact getD_replicate_none _ _
  refine ⟨?_, ?_, ?_, fun cs c => add_length cs c⟩
  · rw [h.1, hinit]
  · rw [h.2]; simp [Changeset.init]
  · intro huntouched
    rw [h.1, hinit]
    have hfil : commits.filter (fun c => (Change.from_str c.summary).isOk &&
        decide (s ∈ c.deltas.filterMap S.get)) = [] := by
      rw [List.filter_eq_nil_iff]
      intro c hc
      simp only [Bool.and_eq_true, decide_eq_true_eq]
      exact fun hcon => huntouched c hc hcon
    rw [hfil]
    rfl

/-- Witness for C2: one accepted fix commit touching `crates/mono` lifts
slot 1 of the two-scope example to Patch. -/
theorem changeset_increments_are_max_witness :
    (([⟨"fix: summary".toList, [["crates", "mono", "src", "lib.rs"]], none,
        "abc1234"⟩] : List Commit).foldl Changeset.add
      (Changeset.init ⟨[(["crates"], "root"), (["crates", "mono"], "mono")]⟩)
      ).increments.getD 1 none = some .Patch := by
  rw [(changeset_increments_are_max
    ⟨[(["crates"], "root"), (["crates", "mono"], "mono")]⟩
    [⟨"fix: summary".toList, [["crates", "mono", "src", "lib.rs"]], none,
      "abc1234"⟩] 1).1]
  decide

-- ===========================================================================
-- Changelog (mono-changeset/src/changeset/changelog.rs, section.rs, item.rs)
-- ===========================================================================

/-- `Category` from
`mono-changeset/src/changeset/changelog/section/category.rs`, with the
derived order `Breaking < Feature < Fix < Performance < Refactor`. -/
inductive Category where
  | Breaking : Category
  | Feature : Category
  | Fix : Category
  | Performance : Category
  | Refactor : Category
deriving DecidableEq, Repr

/-- Rank of a category under the derived `Ord` (declaration order). -/
def crank : Category → Nat
  | .Breaking => 0
  | .Feature => 1
  | .Fix => 2
  | .Performance => 3
  | .Refactor => 4

/-- `From<&Change> for Option<Category>`: breaking changes map to
`Breaking` regardless of kind; otherwise the four release-relevant kinds
map to their category and all other kinds to `None`. -/
def categoryOf (change : Change) : Option Category :=
  if change.is_breaking then some .Breaking
  else
    match change.kind with
    | .Feature => some .Feature
    | .Fix => some .Fix
    | .Performance => some .Performance
    | .Refactor => some .Refactor
    | _ => none

/-- `Category`'s `Display` implementation: the section headings. -/
def Category.heading : Category → String
  | .Breaking => "Breaking changes"
  | .Feature => "Features"
  | .Fix => "Bug fixes"
  | .Performance => "Performance improvements"
  | .Refactor => "Refactorings"

/-- `BTreeMap<Category, Section>::entry(cat).or_insert(..).add(rev)`: keep
the association list sorted by category rank, appending the revision to an
existing section or inserting a fresh one at its ordered position. -/
def sectionsInsert (m : List (Category × List Revision)) (cat : Category)
    (rev : Revision) : List (Category × List Revision) :=
  match m with
  | [] => [(cat, [rev])]
  | (c, items) :: rest =>
    if crank cat < crank c then (cat, [rev]) :: (c, items) :: rest
    else if cat = c then (c, items ++ [rev]) :: rest
    else (c, items) :: sectionsInsert rest cat rev

/-- `Changelog::add`: changes without a category are skipped. -/
def Changelog.add (m : List (Category × List Revision)) (rev : Revision) :
    List (Category × List Revision) :=
  match categoryOf rev.change with
  | none => m
  | some cat => sectionsInsert m cat rev

/-- `Changeset::to_changelog`: extend an empty changelog with all
revisions in order. -/
def Changeset.to_changelog (cs : Changeset) : List (Category × List Revision) :=
  cs.revisions.foldl Changelog.add []

/-- `Item`'s `Display` implementation from
`mono-changeset/src/changeset/changelog/section/item.rs`: short id, bold
scope names separated by `", "`, an en-dash, the summary, and the issue
list. -/
def itemStr (S : Scopes) (r : Revision) : String :=
  r.commit.shortId ++
    (if r.scopes.isEmpty then "" else
      " " ++ String.intercalate ", "
        (r.scopes.map (fun i => "__" ++ (S.paths.getD i ([], "")).2 ++ "__"))) ++
    " – " ++ String.mk r.change.summary ++
    (if r.issues.isEmpty then "" else
      " (" ++ String.intercalate ", " (r.issues.map (fun n => "#" ++ toString n))
        ++ ")")

/-- `Section`'s `Display` implementation: heading line, then one `"- "`
line per item. -/
def sectionStr (S : Scopes) (cat : Category) (items : List Revision) : String :=
  "### " ++ cat.heading ++ "\n" ++
    String.join (items.map (fun r => "\n- " ++ itemStr S r))

/-- `Changelog`'s `Display` implementation: `"## Changelog"` when there is
at least one section, then each section preceded by a blank line. -/
def changelogStr (S : Scopes) (m : List (Category × List Revision)) : String :=
  (if m.isEmpty then "" else "## Changelog") ++
    String.join (m.map (fun p => "\n\n" ++ sectionStr S p.1 p.2))

/-- The rendered changelog of a changeset. -/
def Changeset.changelog_render (cs : Changeset) : String :=
  changelogStr cs.scopes cs.to_changelog

/-- The five categories in order, as iterated by the `BTreeMap`. -/
def allCategories : List Category :=
  [.Breaking, .Feature, .Fix, .Performance, .Refactor]

/-- The specification shape of the changelog grouping: for each category
in order, the revisions of that category in changeset order, omitting
empty categories (spec §4.5). -/
def specOver (cats : List Category) (revs : List Revision) :
    List (Category × List Revision) :=
  cats.filterMap (fun cat =>
    if (revs.filter (fun r => decide (categoryOf r.change = some cat))).isEmpty
    then none
    else some (cat, revs.filter (fun r => decide (categoryOf r.change = some cat))))

/-- The specification grouping over all five categories. -/
def specSections (revs : List Revision) : List (Category × List Revision) :=
  specOver allCategories revs

theorem sectionsInsert_prepend (m : List (Category × List Revision))
    (cat : Category) (r : Revision) (h : ∀ e ∈ m, crank cat < crank e.1) :
    sectionsInsert m cat r = (cat, [r]) :: m := by
  cases m with
  | nil => rfl
  | cons e rest =>
    obtain ⟨c, items⟩ := e
    have := h (c, items) (List.mem_cons_self _ _)
    simp only [sectionsInsert, if_pos this]

theorem specOver_cons (c : Category) (rest : List Category) (revs : List Revision) :
    specOver (c :: rest) revs =
      (if (revs.filter (fun x => decide (categoryOf x.change = some c))).isEmpty
       then specOver rest revs
       else (c, revs.filter (fun x => decide (categoryOf x.change = some c))) ::
         specOver rest revs) := by
  unfold specOver
  rw [List.filterMap_cons]
  by_cases hb : (revs.filter (fun x => decide (categoryOf x.change = some c))).isEmpty
  · simp only [if_pos hb]
  · simp only [if_neg hb]

theorem specOver_cats_mem (cats : List Category) (revs : List Revision) :
    ∀ e ∈ specOver cats revs, e.1 ∈ cats := by
  induction cats with
  | nil => intro e he; exact absurd he (by simp [specOver])
  | cons c rest ih =>
    intro e he
    rw [specOver_cons] at he
    by_cases hb : (revs.filter (fun x => decide (categoryOf x.change = some c))).isEmpty
    · rw [if_pos hb] at he
      exact List.mem_cons_of_mem c (ih e he)
    · rw [if_neg hb] at he
      rcases List.mem_cons.mp he with h | h
      · rw [h]
        exact List.mem_cons_self c rest
      · exact List.mem_cons_of_mem c (ih e h)

theorem specOver_skip (cats : List Category) (revs : List Revision) (r : Revision)
    (h : ∀ cat ∈ cats, categoryOf r.change ≠ some cat) :
    specOver cats (revs ++ [r]) = specOver cats revs := by
  unfold specOver
  apply List.filterMap_congr
  intro cat hcat
  have hpred : decide (categoryOf r.change = some cat) = false := by
    simp [h cat hcat]
  rw [List.filter_append]
  simp [hpred]

theorem insert_specOver :
    ∀ (cats : List Category), List.Pairwise (fun a b => crank a < crank b) cats →
      ∀ (cat : Category), cat ∈ cats → ∀ (revs : List Revision) (r : Revision),
      categoryOf r.change = some cat →
      sectionsInsert (specOver cats revs) cat r = specOver cats (revs ++ [r]) := by
  intro cats
  induction cats with
  | nil => intro _ cat hmem; exact absurd hmem (by simp)
  | cons c rest ih =>
    intro hpw cat hmem revs r hr
    have hpw2 := (List.pairwise_cons.mp hpw).2
    have hhead := (List.pairwise_cons.mp hpw).1
    by_cases hcc : cat = c
    · subst hcc
      have hskip : specOver rest (revs ++ [r]) = specOver rest revs := by
        apply specOver_skip
        intro cat2 hcat2 hcon
        rw [hr] at hcon
        injection hcon with h2
        rw [← h2] at hcat2
        exact absurd (hhead cat hcat2) (lt_irrefl _)
      have hfil : (revs ++ [r]).filter
          (fun x => decide (categoryOf x.change = some cat)) =
          revs.filter (fun x => decide (categoryOf x.change = some cat)) ++ [r] := by
        rw [List.filter_append]
        simp [hr]
      rw [specOver_cons, specOver_cons, hfil, hskip]
      by_cases hempty :
          (revs.filter (fun x => decide (categoryOf x.change = some cat))).isEmpty
      · rw [if_pos hempty]
        rw [if_neg (by simp)]
        rw [List.isEmpty_iff.mp hempty]
        rw [sectionsInsert_prepend _ _ _ (fun e he =>
          hhead e.1 (specOver_cats_mem rest revs e he))]
        simp
      · rw [if_neg hempty, if_neg (by simp)]
        simp [sectionsInsert]
    · have hmem2 : cat ∈ rest := by
        rcases List.mem_cons.mp hmem with h | h
        · exact absurd h hcc
        · exact h
      have hlt : crank c < crank cat := hhead cat hmem2
      have hnotc : decide (categoryOf r.change = some c) = false := by
        simp only [decide_eq_false_iff_not]
        intro hcon
        rw [hr] at hcon
        injection hcon with h2
        rw [h2] at hlt
        exact absurd hlt (lt_irrefl _)
      have hfil : (revs ++ [r]).filter
          (fun x => decide (categoryOf x.change = some c)) =
          revs.filter (fun x => decide (categoryOf x.change = some c)) := by
        rw [List.filter_append]
        simp [hnotc]
      rw [specOver_cons, specOver_cons, hfil]
      by_cases hempty :
          (revs.filter (fun x => decide (categoryOf x.change = some c))).isEmpty
      · rw [if_pos hempty, if_pos hempty]
        exact ih hpw2 cat hmem2 revs r hr
      · rw [if_neg hempty, if_neg hempty]
        have hnlt : ¬ crank cat < crank c := by omega
        simp only [sectionsInsert]
        rw [if_neg hnlt, if_neg hcc]
        rw [ih hpw2 cat hmem2 revs r hr]

theorem to_changelog_eq_spec : ∀ revs : List Revision,
    revs.foldl Changelog.add [] = specSections revs := by
  intro revs
  induction revs using List.reverseRecOn with
  | nil => rfl
  | append_singleton revs r ih =>
    rw [List.foldl_append]
    simp only [List.foldl_cons, List.foldl_nil]
    rw [ih]
    cases hcat : categoryOf r.change with
    | none =>
      simp only [Changelog.add, hcat]
      unfold specSections
      rw [specOver_skip _ _ _ (fun cat _ hcon => by
        rw [hcat] at hcon
        exact absurd hcon (by simp))]
    | some cat =>
      simp only [Changelog.add, hcat]
      unfold specSections
      exact insert_specOver allCategories (by decide) cat
        (by cases cat <;> decide) revs r hcat

/-- C8: the changelog of a changeset groups exactly the release-relevant
revisions (breaking, or of kind Feature/Fix/Performance/Refactor) by
category in the fixed order Breaking < Feature < Fix < Performance <
Refactor, each section holding its revisions in changeset order
(`to_changelog = specSections`); rendering is the heading/`"- "` item
markdown of that grouping; a changeset with no release-relevant revision
renders to the empty string; and with at least one relevant revision the
output begins with the line `"## Changelog"`. -/
theorem changelog_by_category (cs : Changeset) :
    cs.to_changelog = specSections cs.revisions ∧
    cs.changelog_render = changelogStr cs.scopes (specSections cs.revisions) ∧
    ((∀ r ∈ cs.revisions, categoryOf r.change = none) →
      cs.changelog_render = "") ∧
    (∀ r ∈ cs.revisions, categoryOf r.change ≠ none →
      cs.changelog_render = "## Changelog" ++
        String.join ((specSections cs.revisions).map
          (fun p => "\n\n" ++ sectionStr cs.scopes p.1 p.2))) := by
  have hmain : cs.to_changelog = specSections cs.revisions :=
    to_changelog_eq_spec cs.revisions
  have hrender : cs.changelog_render =
      changelogStr cs.scopes (specSections cs.revisions) := by
    unfold Changeset.changelog_render
    rw [hmain]
  refine ⟨hmain, hrender, ?_, ?_⟩
  · intro hall
    have hempty : specSections cs.revisions = [] := by
      unfold specSections specOver
      rw [List.filterMap_eq_nil_iff]
      intro cat hcat
      rw [if_pos (by
        rw [List.isEmpty_iff, List.filter_eq_nil_iff]
        intro r hr
        simp [hall r hr])]
    rw [hrender, hempty]
    rfl
  · intro r hr hne
    have hne2 : specSections cs.revisions ≠ [] := by
      intro hcon
      cases hcatr : categoryOf r.change with
      | none => exact hne hcatr
      | some cat =>
        unfold specSections specOver at hcon
        rw [List.filterMap_eq_nil_iff] at hcon
        have := hcon cat (by cases cat <;> decide)
        rw [if_neg (by
          rw [List.isEmpty_iff]
          intro hfil
          have : r ∈ List.filter
              (fun x => decide (categoryOf x.change = some cat)) cs.revisions := by
            rw [List.mem_filter]
            exact ⟨hr, by simp [hcatr]⟩
          rw [hfil] at this
          exact absurd this (by simp))] at this
        exact absurd this (by simp)
    rw [hrender]
    unfold changelogStr
    rw [if_neg (by rw [List.isEmpty_iff]; exact hne2)]

/-- Witness for C8: a changeset whose only revision is a chore renders to
the empty string. -/
theorem changelog_by_category_witness :
    Changeset.changelog_render ⟨⟨[]⟩,
      [⟨⟨"chore: x".toList, [], none, "abcd123"⟩, ⟨.Chore, "x".toList, [], false⟩,
        [], []⟩], []⟩ = "" :=
  (changelog_by_category ⟨⟨[]⟩,
      [⟨⟨"chore: x".toList, [], none, "abcd123"⟩, ⟨.Chore, "x".toList, [], false⟩,
        [], []⟩], []⟩).2.2.1 (by
    intro r hr
    obtain rfl := List.mem_singleton.mp hr
    rfl)

-- ===========================================================================
-- Dependency graph and increment propagation
-- (mono-project/src/project/workspace/dependents.rs, dependents/suggestion.rs)
-- ===========================================================================

/-- The workspace graph built by `Workspace::dependents`: nodes are the
`n` packages in insertion order, and each edge `(m, n)` points from a
dependency to a dependent, as added by `builder.add_edge(m, n, ())`. -/
structure Graph where
  n : Nat
  edges : List (Nat × Nat)

/-- Modelled from the spec: `topology().incoming()` of the external `zrx`
graph — the dependencies of `node`, i.e. the sources of all edges whose
target is `node`. -/
def Graph.incoming (g : Graph) (node : Nat) : List Nat :=
  (g.edges.filter (fun e => e.2 == node)).map (fun e => e.1)

/-- One pass over the edges, adding every target whose source is already
reached (the expansion step of the reachable-set computation). -/
def reachStep (g : Graph) (rs : List Nat) : List Nat :=
  g.edges.foldl
    (fun acc e => if e.1 ∈ acc ∧ e.2 ∉ acc then acc ++ [e.2] else acc) rs

/-- Iterated expansion. -/
def reachIter (g : Graph) : Nat → List Nat → List Nat
  | 0, rs => rs
  | k + 1, rs => reachStep g (reachIter g k rs)

/-- Modelled from the spec: the transitive closure of the seed set under
the graph's edges (spec §4.6, "starting only from the transitive closure
of seed"); `g.n + 1` expansion passes suffice since each non-closed pass
grows the set and there are at most `g.n` nodes. -/
def Graph.reach (g : Graph) (seeds : List Nat) : List Nat :=
  reachIter g (g.n + 1) seeds

/-- The least not-yet-emitted reachable node whose reachable dependencies
are all emitted: Kahn's choice with ties broken by node insertion order
(spec §4.6). -/
def pickNext (g : Graph) (rs em : List Nat) : Option Nat :=
  (List.range g.n).find? (fun v =>
    decide (v ∈ rs ∧ v ∉ em ∧ ∀ d ∈ g.incoming v, d ∈ rs → d ∈ em))

/-- Kahn's algorithm restricted to the reachable set, fuelled by the node
count. -/
def kahnGo (g : Graph) (rs : List Nat) : Nat → List Nat → List Nat
  | 0, em => em
  | fuel + 1, em =>
    match pickNext g rs em with
    | none => em
    | some v => kahnGo g rs fuel (em ++ [v])

/-- Modelled from the spec: `Graph::traverse(seeds)` of the external `zrx`
graph — a deterministic Kahn-style topological order restricted to the
nodes reachable from the seeds, ties broken by node insertion order
(spec §4.6). -/
def Graph.traverse (g : Graph) (seeds : List Nat) : List Nat :=
  kahnGo g (g.reach seeds) g.n []

/-- The seed nodes of `Dependents::bump`: the indices of all packages
whose increment slot is set. -/
def seedsOf (increments : List (Option Increment)) : List Nat :=
  (List.range increments.length).filter
    (fun i => (increments.getD i none).isSome)

/-- Ordered duplicate-free insertion into a list sorted by `irank`,
modelling `BTreeSet<Option<Increment>>::insert`. -/
def insertOI (x : Option Increment) (l : List (Option Increment)) :
    List (Option Increment) :=
  match l with
  | [] => [x]
  | a :: rest =>
    if irank x < irank a then x :: a :: rest
    else if irank x = irank a then a :: rest
    else a :: insertOI x rest

/-- The option set offered at `node` by `Dependents::bump`: the node's
current increment, plus the increment of every incoming dependency whose
increment is strictly greater, as a sorted set. -/
def optionsAt (g : Graph) (cur : List (Option Increment)) (node : Nat) :
    List (Option Increment) :=
  (g.incoming node).foldl
    (fun opts dep =>
      if irank (cur.getD node none) < irank (cur.getD dep none)
      then insertOI (cur.getD dep none) opts
      else opts)
    [cur.getD node none]

/-- The visit loop of `Dependents::bump`: at each node of the traversal,
in order, replace the node's slot by the decision function's choice over
the offered options. -/
def bumpGo (g : Graph) (f : Nat → List (Option Increment) → Option Increment)
    (trav : List Nat) (cur : List (Option Increment)) :
    List (Option Increment) :=
  trav.foldl (fun cur node => cur.set node (f node (optionsAt g cur node))) cur

/-- `Dependents::bump` from
`mono-project/src/project/workspace/dependents/suggestion.rs`: traverse
from the seeded nodes in topological order and let the decision function
`f` choose each visited node's increment. -/
def Dependents.bump (g : Graph)
    (f : Nat → List (Option Increment) → Option Increment)
    (increments : List (Option Increment)) : List (Option Increment) :=
  bumpGo g f (g.traverse (seedsOf increments)) increments

theorem foldl_edge_ex (g : Graph) :
    ∀ (l : List (Nat × Nat)) (acc : List Nat), ∃ extra,
      l.foldl (fun acc e => if e.1 ∈ acc ∧ e.2 ∉ acc then acc ++ [e.2] else acc)
        acc = acc ++ extra := by
  intro l
  induction l with
  | nil => intro acc; exact ⟨[], by simp⟩
  | cons e rest ih =>
    intro acc
    simp only [List.foldl_cons]
    by_cases hc : e.1 ∈ acc ∧ e.2 ∉ acc
    · rw [if_pos hc]
      obtain ⟨extra, hex⟩ := ih (acc ++ [e.2])
      exact ⟨[e.2] ++ extra, by rw [hex, List.append_assoc]⟩
    · rw [if_neg hc]
      exact ih acc

theorem reachStep_ex (g : Graph) (rs : List Nat) :
    ∃ extra, reachStep g rs = rs ++ extra :=
  foldl_edge_ex g g.edges rs

theorem reachStep_subset (g : Graph) (rs : List Nat) :
    ∀ x ∈ rs, x ∈ reachStep g rs := by
  intro x hx
  obtain ⟨extra, hex⟩ := reachStep_ex g rs
  rw [hex]
  exact List.mem_append_left extra hx

theorem reachStep_closed_of_eq (g : Graph) (rs : List Nat)
    (h : reachStep g rs = rs) :
    ∀ e ∈ g.edges, e.1 ∈ rs → e.2 ∈ rs := by
  intro e hmem h1
  by_contra h2
  obtain ⟨l1, l2, hsplit⟩ := List.append_of_mem hmem
  unfold reachStep at h
  rw [hsplit, List.foldl_append, List.foldl_cons] at h
  obtain ⟨x1, hx1⟩ := foldl_edge_ex g l1 rs
  rw [hx1] at h
  have h1m : e.1 ∈ rs ++ x1 := List.mem_append_left x1 h1
  by_cases h2m : e.2 ∈ rs ++ x1
  · have h2x : e.2 ∈ x1 := by
      rcases List.mem_append.mp h2m with hc | hc
      · exact absurd hc h2
      · exact hc
    rw [if_neg (by rintro ⟨-, hno⟩; exact hno h2m)] at h
    obtain ⟨x2, hx2⟩ := foldl_edge_ex g l2 (rs ++ x1)
    rw [hx2] at h
    have hlen := congrArg List.length h
    simp at hlen
    have : x1 = [] := by
      cases x1 with
      | nil => rfl
      | cons a b => simp at hlen
    rw [this] at h2x
    exact absurd h2x (by simp)
  · rw [if_pos ⟨h1m, h2m⟩] at h
    obtain ⟨x2, hx2⟩ := foldl_edge_ex g l2 (rs ++ x1 ++ [e.2])
    rw [hx2] at h
    have hlen := congrArg List.length h
    simp at hlen

theorem reachStep_fix_of_closed (g : Graph) (rs : List Nat)
    (h : ∀ e ∈ g.edges, e.1 ∈ rs → e.2 ∈ rs) : reachStep g rs = rs := by
  unfold reachStep
  have main : ∀ (l : List (Nat × Nat)), (∀ e ∈ l, e.1 ∈ rs → e.2 ∈ rs) →
      l.foldl (fun acc e => if e.1 ∈ acc ∧ e.2 ∉ acc then acc ++ [e.2] else acc)
        rs = rs := by
    intro l
    induction l with
    | nil => intro _; rfl
    | cons e rest ih =>
      intro hl
      simp only [List.foldl_cons]
      rw [if_neg (by
        rintro ⟨h1, h2⟩
        exact h2 (hl e (List.mem_cons_self e rest) h1))]
      exact ih (fun e2 he2 => hl e2 (List.mem_cons_of_mem e he2))
  exact main g.edges h

theorem reachStep_grow (g : Graph) (rs : List Nat)
    (h : ¬ ∀ e ∈ g.edges, e.1 ∈ rs → e.2 ∈ rs) :
    rs.length + 1 ≤ (reachStep g rs).length := by
  obtain ⟨extra, hex⟩ := reachStep_ex g rs
  cases extra with
  | nil =>
    rw [List.append_nil] at hex
    exact absurd (reachStep_closed_of_eq g rs hex) h
  | cons a b =>
    rw [hex]
    simp

theorem reachStep_bound (g : Graph) (rs : List Nat)
    (hval : ∀ e ∈ g.edges, e.2 < g.n) (hb : ∀ x ∈ rs, x < g.n) :
    ∀ x ∈ reachStep g rs, x < g.n := by
  unfold reachStep
  have main : ∀ (l : List (Nat × Nat)), (∀ e ∈ l, e.2 < g.n) →
      ∀ (acc : List Nat), (∀ x ∈ acc, x < g.n) →
      ∀ x ∈ l.foldl
        (fun acc e => if e.1 ∈ acc ∧ e.2 ∉ acc then acc ++ [e.2] else acc) acc,
        x < g.n := by
    intro l
    induction l with
    | nil => intro _ acc hacc; exact hacc
    | cons e rest ih =>
      intro hl acc hacc
      simp only [List.foldl_cons]
      by_cases hc : e.1 ∈ acc ∧ e.2 ∉ acc
      · rw [if_pos hc]
        refine ih (fun e2 he2 => hl e2 (List.mem_cons_of_mem e he2)) _ ?_
        intro x hx
        rcases List.mem_append.mp hx with hc2 | hc2
        · exact hacc x hc2
        · rw [List.mem_singleton.mp hc2]
          exact hl e (List.mem_cons_self e rest)
      · rw [if_neg hc]
        exact ih (fun e2 he2 => hl e2 (List.mem_cons_of_mem e he2)) acc hacc
  exact main g.edges (fun e he => hval e he) rs hb

theorem reachStep_nodup (g : Graph) (rs : List Nat) (hnd : rs.Nodup) :
    (reachStep g rs).Nodup := by
  unfold reachStep
  have main : ∀ (l : List (Nat × Nat)) (acc : List Nat), acc.Nodup →
      (l.foldl
        (fun acc e => if e.1 ∈ acc ∧ e.2 ∉ acc then acc ++ [e.2] else acc)
        acc).Nodup := by
    intro l
    induction l with
    | nil => intro acc h; exact h
    | cons e rest ih =>
      intro acc hacc
      simp only [List.foldl_cons]
      by_cases hc : e.1 ∈ acc ∧ e.2 ∉ acc
      · rw [if_pos hc]
        refine ih _ ?_
        rw [List.nodup_append]
        exact ⟨hacc, List.nodup_singleton e.2, by
          intro a ha hb
          rw [List.mem_singleton.mp hb] at ha
          exact hc.2 ha⟩
      · rw [if_neg hc]
        exact ih acc hacc
  exact main g.edges rs hnd

theorem nodup_bound_length (l : List Nat) (n : Nat) (hnd : l.Nodup)
    (hb : ∀ x ∈ l, x < n) : l.length ≤ n := by
  have hsub : l.toFinset ⊆ Finset.range n := by
    intro x hx
    rw [Finset.mem_range]
    exact hb x (List.mem_toFinset.mp hx)
  have hcard := Finset.card_le_card hsub
  rw [Finset.card_range] at hcard
  rwa [List.toFinset_card_of_nodup hnd] at hcard

theorem reachIter_props (g : Graph) (seeds : List Nat)
    (hval : ∀ e ∈ g.edges, e.2 < g.n) (hnd : seeds.Nodup)
    (hb : ∀ x ∈ seeds, x < g.n) : ∀ k,
    (reachIter g k seeds).Nodup ∧ (∀ x ∈ reachIter g k seeds, x < g.n) ∧
      (∀ x ∈ seeds, x ∈ reachIter g k seeds) := by
  intro k
  induction k with
  | zero => exact ⟨hnd, hb, fun x hx => hx⟩
  | succ k ih =>
    refine ⟨reachStep_nodup g _ ih.1, reachStep_bound g _ hval ih.2.1, ?_⟩
    intro x hx
    exact reachStep_subset g _ x (ih.2.2 x hx)

theorem reachIter_closed_or (g : Graph) (seeds : List Nat) : ∀ k,
    (∀ e ∈ g.edges, e.1 ∈ reachIter g k seeds → e.2 ∈ reachIter g k seeds) ∨
      seeds.length + k ≤ (reachIter g k seeds).length := by
  intro k
  induction k with
  | zero => exact Or.inr (by simp [reachIter])
  | succ k ih =>
    by_cases hcl : ∀ e ∈ g.edges, e.1 ∈ reachIter g k seeds →
        e.2 ∈ reachIter g k seeds
    · left
      have hfix : reachIter g (k + 1) seeds = reachIter g k seeds := by
        show reachStep g (reachIter g k seeds) = reachIter g k seeds
        exact reachStep_fix_of_closed g _ hcl
      rw [hfix]
      exact hcl
    · rcases ih with h | h
      · exact absurd h hcl
      · right
        have hg := reachStep_grow g (reachIter g k seeds) hcl
        show seeds.length + (k + 1) ≤ (reachStep g (reachIter g k seeds)).length
        omega

theorem reach_closed (g : Graph) (seeds : List Nat)
    (hval : ∀ e ∈ g.edges, e.2 < g.n) (hnd : seeds.Nodup)
    (hb : ∀ x ∈ seeds, x < g.n) :
    ∀ e ∈ g.edges, e.1 ∈ g.reach seeds → e.2 ∈ g.reach seeds := by
  rcases reachIter_closed_or g seeds (g.n + 1) with h | h
  · exact h
  · have hprops := reachIter_props g seeds hval hnd hb (g.n + 1)
    have := nodup_bound_length _ g.n hprops.1 hprops.2.1
    omega

theorem reach_seeds_subset (g : Graph) (seeds : List Nat)
    (hval : ∀ e ∈ g.edges, e.2 < g.n) (hnd : seeds.Nodup)
    (hb : ∀ x ∈ seeds, x < g.n) : ∀ x ∈ seeds, x ∈ g.reach seeds :=
  (reachIter_props g seeds hval hnd hb (g.n + 1)).2.2

theorem reach_bound (g : Graph) (seeds : List Nat)
    (hval : ∀ e ∈ g.edges, e.2 < g.n) (hnd : seeds.Nodup)
    (hb : ∀ x ∈ seeds, x < g.n) : ∀ x ∈ g.reach seeds, x < g.n :=
  (reachIter_props g seeds hval hnd hb (g.n + 1)).2.1

/-- Topological soundness of an emission order: every reachable incoming
dependency of an emitted node is emitted strictly before it. -/
def TopoOk (g : Graph) (rs t : List Nat) : Prop :=
  ∀ p v q, t = p ++ v :: q → ∀ d ∈ g.incoming v, d ∈ rs → d ∈ p

theorem incoming_mem (g : Graph) (d v : Nat) :
    d ∈ g.incoming v ↔ (d, v) ∈ g.edges := by
  unfold Graph.incoming
  rw [List.mem_map]
  constructor
  · rintro ⟨e, he, rfl⟩
    have := List.mem_filter.mp he
    have h2 : e.2 = v := by simpa using this.2
    have : e = (e.1, v) := by rw [← h2]
    rw [← this]
    exact this ▸ (List.mem_filter.mp he).1
  · intro h
    exact ⟨(d, v), List.mem_filter.mpr ⟨h, by simp⟩, rfl⟩

theorem pick_some_spec (g : Graph) (rs em : List Nat) (v : Nat)
    (h : pickNext g rs em = some v) :
    v < g.n ∧ v ∈ rs ∧ v ∉ em ∧ ∀ d ∈ g.incoming v, d ∈ rs → d ∈ em := by
  unfold pickNext at h
  have hmem := List.mem_of_find?_eq_some h
  have hpred := List.find?_some h
  rw [decide_eq_true_eq] at hpred
  exact ⟨List.mem_range.mp hmem, hpred.1, hpred.2.1, hpred.2.2⟩

theorem pick_none_spec (g : Graph) (rs em : List Nat)
    (h : pickNext g rs em = none) (v : Nat) (hv : v < g.n) :
    ¬(v ∈ rs ∧ v ∉ em ∧ ∀ d ∈ g.incoming v, d ∈ rs → d ∈ em) := by
  unfold pickNext at h
  rw [List.find?_eq_none] at h
  have := h v (List.mem_range.mpr hv)
  simpa using this

theorem snoc_decomp (l1 : List Nat) (a : Nat) (p : List Nat) (w : Nat)
    (q : List Nat) (h : l1 ++ [a] = p ++ w :: q) :
    (q = [] ∧ p = l1 ∧ w = a) ∨ (∃ q2, q = q2 ++ [a] ∧ l1 = p ++ w :: q2) := by
  rcases List.eq_nil_or_concat q with rfl | ⟨q2, b, rfl⟩
  · left
    have hlen : l1.length = p.length := by
      have := congrArg List.length h
      simp only [List.length_append, List.length_cons, List.length_nil] at this
      omega
    obtain ⟨h1, h2⟩ := List.append_inj h hlen
    injection h2 with h3
    exact ⟨rfl, h1.symm, h3.symm⟩
  · right
    have hq : q2.concat b = q2 ++ [b] := List.concat_eq_append q2 b
    rw [hq] at h ⊢
    have h2 : l1 ++ [a] = (p ++ w :: q2) ++ [b] := by rw [h]; simp
    have hlen : l1.length = (p ++ w :: q2).length := by
      have := congrArg List.length h2
      simp only [List.length_append, List.length_cons, List.length_nil] at this ⊢
      omega
    obtain ⟨h1, h3⟩ := List.append_inj h2 hlen
    injection h3 with h4
    exact ⟨q2, by rw [h4], h1⟩

theorem topo_append (g : Graph) (rs em : List Nat) (v : Nat)
    (htopo : TopoOk g rs em)
    (hdeps : ∀ d ∈ g.incoming v, d ∈ rs → d ∈ em) :
    TopoOk g rs (em ++ [v]) := by
  intro p w q hsplit d hd hdr
  rcases snoc_decomp em v p w q hsplit with ⟨-, rfl, rfl⟩ | ⟨q2, -, hsplit2⟩
  · exact hdeps d hd hdr
  · exact htopo p w q2 hsplit2 d hd hdr

theorem kahn_inv (g : Graph) (rs : List Nat) : ∀ (fuel : Nat) (em : List Nat),
    em.Nodup → (∀ x ∈ em, x ∈ rs) → TopoOk g rs em →
    (kahnGo g rs fuel em).Nodup ∧ (∀ x ∈ kahnGo g rs fuel em, x ∈ rs) ∧
      TopoOk g rs (kahnGo g rs fuel em) := by
  intro fuel
  induction fuel with
  | zero => intro em h1 h2 h3; exact ⟨h1, h2, h3⟩
  | succ fuel ih =>
    intro em h1 h2 h3
    cases hp : pickNext g rs em with
    | none =>
      simp only [kahnGo, hp]
      exact ⟨h1, h2, h3⟩
    | some v =>
      simp only [kahnGo, hp]
      obtain ⟨hvn, hvr, hvem, hdeps⟩ := pick_some_spec g rs em v hp
      refine ih (em ++ [v]) ?_ ?_ ?_
      · rw [List.nodup_append]
        exact ⟨h1, List.nodup_singleton v, by
          intro a ha hb
          rw [List.mem_singleton.mp hb] at ha
          exact hvem ha⟩
      · intro x hx
        rcases List.mem_append.mp hx with hc | hc
        · exact h2 x hc
        · rw [List.mem_singleton.mp hc]
          exact hvr
      · exact topo_append g rs em v h3 hdeps

theorem kahn_end (g : Graph) (rs : List Nat) : ∀ (fuel : Nat) (em : List Nat),
    pickNext g rs (kahnGo g rs fuel em) = none ∨
      (kahnGo g rs fuel em).length = em.length + fuel := by
  intro fuel
  induction fuel with
  | zero => intro em; exact Or.inr rfl
  | succ fuel ih =>
    intro em
    cases hp : pickNext g rs em with
    | none =>
      refine Or.inl ?_
      simp only [kahnGo, hp]
    | some v =>
      simp only [kahnGo, hp]
      rcases ih (em ++ [v]) with h | h
      · exact Or.inl h
      · right
        rw [h]
        simp
        omega

theorem kahn_complete (g : Graph) (rs : List Nat)
    (hbound : ∀ x ∈ rs, x < g.n)
    (rank : Nat → Nat) (hrank : ∀ e ∈ g.edges, rank e.1 < rank e.2) :
    ∀ x ∈ rs, x ∈ kahnGo g rs g.n [] := by
  have htopo0 : TopoOk g rs [] := by
    intro p v q hsplit
    exact absurd hsplit (by simp)
  have hinv := kahn_inv g rs g.n [] List.nodup_nil (by simp) htopo0
  rcases kahn_end g rs g.n [] with hend | hlen
  · intro x hx
    by_contra hxT
    have main : ∀ k, ∀ y, rank y ≤ k → y ∈ rs →
        y ∉ kahnGo g rs g.n [] → False := by
      intro k
      induction k using Nat.strong_induction_on with
      | _ k ih =>
        intro y hyk hyr hyT
        have hyn : y < g.n := hbound y hyr
        have hnp := pick_none_spec g rs (kahnGo g rs g.n []) hend y hyn
        push_neg at hnp
        obtain ⟨d, hd, hdr, hdT⟩ := hnp hyr hyT
        have hdy : rank d < rank y := hrank (d, y) ((incoming_mem g d y).mp hd)
        exact ih (rank d) (by omega) d (le_refl _) hdr hdT
    exact main (rank x) x (le_refl _) hx hxT
  · intro x hx
    have hxn := hbound x hx
    have hcard : (kahnGo g rs g.n []).toFinset.card = g.n := by
      rw [List.toFinset_card_of_nodup hinv.1]
      simpa using hlen
    have hsubF : (kahnGo g rs g.n []).toFinset ⊆ Finset.range g.n := by
      intro v hv
      rw [Finset.mem_range]
      exact hbound v (hinv.2.1 v (List.mem_toFinset.mp hv))
    have heq := Finset.eq_of_subset_of_card_le hsubF
      (by rw [hcard, Finset.card_range])
    have hmem : x ∈ (kahnGo g rs g.n []).toFinset := by
      rw [heq]
      exact Finset.mem_range.mpr hxn
    exact List.mem_toFinset.mp hmem

theorem insertOI_ne_nil (x : Option Increment) (l : List (Option Increment)) :
    insertOI x l ≠ [] := by
  cases l with
  | nil => simp [insertOI]
  | cons a rest =>
    simp only [insertOI]
    split
    · simp
    · split <;> simp

theorem insertOI_eq (x : Option Increment) (a : Option Increment)
    (rest : List (Option Increment)) :
    insertOI x (a :: rest) =
      if irank x < irank a then x :: a :: rest
      else if irank x = irank a then a :: rest
      else a :: insertOI x rest := rfl

theorem mem_insertOI (o x : Option Increment) :
    ∀ (l : List (Option Increment)), o ∈ insertOI x l ↔ o = x ∨ o ∈ l := by
  intro l
  induction l with
  | nil => simp [insertOI]
  | cons a rest ih =>
    rw [insertOI_eq]
    by_cases h1 : irank x < irank a
    · rw [if_pos h1]
      simp only [List.mem_cons]
    · rw [if_neg h1]
      by_cases h2 : irank x = irank a
      · have hxa : x = a := irank_inj x a h2
        rw [if_pos h2]
        constructor
        · intro h
          exact Or.inr h
        · rintro (h | h)
          · rw [h, hxa]
            exact List.mem_cons_self a rest
          · exact h
      · rw [if_neg h2]
        simp only [List.mem_cons, ih]
        tauto

theorem chain_head_lt : ∀ (l : List (Option Increment)) (a : Option Increment),
    List.Chain' (fun u v => irank u < irank v) (a :: l) →
    ∀ y ∈ l, irank a < irank y := by
  intro l
  induction l with
  | nil => intro a _ y hy; exact absurd hy (by simp)
  | cons b rest ih =>
    intro a hch y hy
    have hab : irank a < irank b := (List.chain'_cons.mp hch).1
    rcases List.mem_cons.mp hy with rfl | hm
    · exact hab
    · exact lt_trans hab (ih b (List.chain'_cons.mp hch).2 y hm)

theorem chain_insertOI (x : Option Increment) :
    ∀ (l : List (Option Increment)),
      List.Chain' (fun a b => irank a < irank b) l →
      List.Chain' (fun a b => irank a < irank b) (insertOI x l) := by
  intro l
  induction l with
  | nil => intro _; simp [insertOI]
  | cons a rest ih =>
    intro hch
    rw [insertOI_eq]
    by_cases h1 : irank x < irank a
    · rw [if_pos h1]
      exact List.Chain'.cons h1 hch
    · rw [if_neg h1]
      by_cases h2 : irank x = irank a
      · rw [if_pos h2]
        exact hch
      · rw [if_neg h2]
        have hax : irank a < irank x := by omega
        have hrest := (List.chain'_cons'.mp hch).2
        have hnew := ih hrest
        rw [List.chain'_cons']
        refine ⟨?_, hnew⟩
        intro y hy
        have hym : y ∈ insertOI x rest := by
          cases hik : insertOI x rest with
          | nil => exact absurd hik (insertOI_ne_nil x rest)
          | cons z zs =>
            rw [hik] at hy
            injection hy with hy2
            rw [← hy2]
            exact List.mem_cons_self z zs
        rcases (mem_insertOI y x rest).mp hym with rfl | hm
        · exact hax
        · exact chain_head_lt rest a hch y hm

theorem opts_fold_mem (cur : List (Option Increment)) (node : Nat)
    (o : Option Increment) :
    ∀ (deps : List Nat) (acc : List (Option Increment)),
      o ∈ deps.foldl (fun opts dep =>
        if irank (cur.getD node none) < irank (cur.getD dep none)
        then insertOI (cur.getD dep none) opts else opts) acc ↔
      o ∈ acc ∨ ∃ d ∈ deps, irank (cur.getD node none) < irank (cur.getD d none) ∧
        o = cur.getD d none := by
  intro deps
  induction deps with
  | nil => intro acc; simp
  | cons d rest ih =>
    intro acc
    simp only [List.foldl_cons]
    by_cases hc : irank (cur.getD node none) < irank (cur.getD d none)
    · rw [if_pos hc, ih, mem_insertOI]
      constructor
      · rintro ((rfl | h) | ⟨d2, hd2, hlt, rfl⟩)
        · exact Or.inr ⟨d, List.mem_cons_self d rest, hc, rfl⟩
        · exact Or.inl h
        · exact Or.inr ⟨d2, List.mem_cons_of_mem d hd2, hlt, rfl⟩
      · rintro (h | ⟨d2, hd2, hlt, rfl⟩)
        · exact Or.inl (Or.inr h)
        · rcases List.mem_cons.mp hd2 with rfl | hm
          · exact Or.inl (Or.inl rfl)
          · exact Or.inr ⟨d2, hm, hlt, rfl⟩
    · rw [if_neg hc, ih]
      constructor
      · rintro (h | ⟨d2, hd2, hlt, rfl⟩)
        · exact Or.inl h
        · exact Or.inr ⟨d2, List.mem_cons_of_mem d hd2, hlt, rfl⟩
      · rintro (h | ⟨d2, hd2, hlt, rfl⟩)
        · exact Or.inl h
        · rcases List.mem_cons.mp hd2 with rfl | hm
          · exact absurd hlt hc
          · exact Or.inr ⟨d2, hm, hlt, rfl⟩

theorem optionsAt_mem (g : Graph) (cur : List (Option Increment)) (node : Nat)
    (o : Option Increment) :
    o ∈ optionsAt g cur node ↔
      (o = cur.getD node none ∨ ∃ d ∈ g.incoming node,
        cur.getD d none = o ∧ irank (cur.getD node none) < irank o) := by
  unfold optionsAt
  rw [opts_fold_mem]
  constructor
  · rintro (h | ⟨d, hd, hlt, rfl⟩)
    · exact Or.inl (List.mem_singleton.mp h)
    · exact Or.inr ⟨d, hd, rfl, hlt⟩
  · rintro (rfl | ⟨d, hd, rfl, hlt⟩)
    · exact Or.inl (List.mem_singleton_self _)
    · exact Or.inr ⟨d, hd, hlt, rfl⟩

theorem optionsAt_sorted (g : Graph) (cur : List (Option Increment)) (node : Nat) :
    List.Chain' (fun a b => irank a < irank b) (optionsAt g cur node) := by
  unfold optionsAt
  have main : ∀ (deps : List Nat) (acc : List (Option Increment)),
      List.Chain' (fun a b => irank a < irank b) acc →
      List.Chain' (fun a b => irank a < irank b)
        (deps.foldl (fun opts dep =>
          if irank (cur.getD node none) < irank (cur.getD dep none)
          then insertOI (cur.getD dep none) opts else opts) acc) := by
    intro deps
    induction deps with
    | nil => intro acc h; exact h
    | cons d rest ih =>
      intro acc h
      simp only [List.foldl_cons]
      by_cases hc : irank (cur.getD node none) < irank (cur.getD d none)
      · rw [if_pos hc]
        exact ih _ (chain_insertOI _ acc h)
      · rw [if_neg hc]
        exact ih _ h
  exact main _ _ (List.chain'_singleton _)

theorem bumpGo_length (g : Graph)
    (f : Nat → List (Option Increment) → Option Increment) :
    ∀ (trav : List Nat) (cur : List (Option Increment)),
      (bumpGo g f trav cur).length = cur.length := by
  intro trav
  induction trav with
  | nil => intro cur; rfl
  | cons v rest ih =>
    intro cur
    show (bumpGo g f rest _).length = _
    rw [ih, List.length_set]

theorem bumpGo_untouched (g : Graph)
    (f : Nat → List (Option Increment) → Option Increment) (v : Nat) :
    ∀ (trav : List Nat) (cur : List (Option Increment)), v ∉ trav →
      (bumpGo g f trav cur).getD v none = cur.getD v none := by
  intro trav
  induction trav with
  | nil => intro cur _; rfl
  | cons w rest ih =>
    intro cur hv
    have hvw : w ≠ v := fun h => hv (h ▸ List.mem_cons_self w rest)
    have hvr : v ∉ rest := fun h => hv (List.mem_cons_of_mem w h)
    show (bumpGo g f rest _).getD v none = _
    rw [ih _ hvr, getD_set_ne _ _ _ _ hvw]

theorem seedsOf_nodup (increments : List (Option Increment)) :
    (seedsOf increments).Nodup :=
  (List.nodup_range _).filter _

theorem seedsOf_bound (increments : List (Option Increment)) :
    ∀ x ∈ seedsOf increments, x < increments.length := by
  intro x hx
  exact List.mem_range.mp (List.mem_of_mem_filter hx)

theorem seedsOf_mem (increments : List (Option Increment)) (x : Nat)
    (hx : x < increments.length) (hs : (increments.getD x none).isSome) :
    x ∈ seedsOf increments := by
  unfold seedsOf
  rw [List.mem_filter]
  exact ⟨List.mem_range.mpr hx, by simpa using hs⟩

/-- C7 (amended): after `Dependents::bump` completes on an acyclic valid
graph — acyclicity witnessed by a ranking function increasing along
edges — and provided the decision function always returns an increment at
least as large as every offered option, every dependent's slot is at least
its dependency's slot (Patch < Minor < Major, unset as bottom).
Unconditionally, the option set offered at a node is exactly the sorted
set of the node's current increment together with the strictly greater
increments of its incoming dependencies, and in the traversal every
visited dependency of a visited node appears strictly before it, so all
dependencies are finalized before the node is visited. -/
theorem bump_propagates (g : Graph) (increments : List (Option Increment))
    (f : Nat → List (Option Increment) → Option Increment) (rank : Nat → Nat)
    (hn : increments.length = g.n)
    (hvalid : ∀ e ∈ g.edges, e.1 < g.n ∧ e.2 < g.n)
    (hrank : ∀ e ∈ g.edges, rank e.1 < rank e.2)
    (hf : ∀ node opts, ∀ o ∈ opts, irank o ≤ irank (f node opts)) :
    (∀ e ∈ g.edges,
      irank ((Dependents.bump g f increments).getD e.1 none) ≤
        irank ((Dependents.bump g f increments).getD e.2 none)) ∧
    (∀ cur node o, o ∈ optionsAt g cur node ↔
      (o = cur.getD node none ∨ ∃ d ∈ g.incoming node,
        cur.getD d none = o ∧ irank (cur.getD node none) < irank o)) ∧
    (∀ cur node, List.Chain' (fun a b => irank a < irank b)
      (optionsAt g cur node)) ∧
    (∀ p t q, g.traverse (seedsOf increments) = p ++ t :: q →
      ∀ d, (d, t) ∈ g.edges → d ∈ g.traverse (seedsOf increments) → d ∈ p) := by
  have hseednd := seedsOf_nodup increments
  have hseedb : ∀ x ∈ seedsOf increments, x < g.n := by
    intro x hx
    rw [← hn]
    exact seedsOf_bound increments x hx
  have hval2 : ∀ e ∈ g.edges, e.2 < g.n := fun e he => (hvalid e he).2
  have hclosed := reach_closed g (seedsOf increments) hval2 hseednd hseedb
  have hrb := reach_bound g (seedsOf increments) hval2 hseednd hseedb
  have hinv := kahn_inv g (g.reach (seedsOf increments)) g.n []
    List.nodup_nil (by simp) (by intro p v q hsplit; exact absurd hsplit (by simp))
  have hcomplete := kahn_complete g (g.reach (seedsOf increments)) hrb rank hrank
  have hTnodup : (g.traverse (seedsOf increments)).Nodup := hinv.1
  have hTsub : ∀ x ∈ g.traverse (seedsOf increments),
      x ∈ g.reach (seedsOf increments) := hinv.2.1
  have hTopo := hinv.2.2
  refine ⟨?_, optionsAt_mem g, optionsAt_sorted g, ?_⟩
  · intro e he
    by_cases hdT : e.1 ∈ g.traverse (seedsOf increments)
    · -- dependency visited: dependent reachable, visited after, lifted by f
      have hdr : e.1 ∈ g.reach (seedsOf increments) := hTsub e.1 hdT
      have htr : e.2 ∈ g.reach (seedsOf increments) := hclosed e he hdr
      have htT : e.2 ∈ g.traverse (seedsOf increments) := hcomplete e.2 htr
      obtain ⟨p, q, hsplit⟩ := List.append_of_mem htT
      have hdp : e.1 ∈ p := hTopo p e.2 q hsplit e.1
        ((incoming_mem g e.1 e.2).mpr (by simpa using he)) hdr
      have hnd2 : (p ++ e.2 :: q).Nodup := hsplit ▸ hTnodup
      rw [List.nodup_append] at hnd2
      have htq : e.2 ∉ q := by
        have := hnd2.2.1
        rw [List.nodup_cons] at this
        exact this.1
      have hdq : e.1 ∉ e.2 :: q := fun h => hnd2.2.2 hdp h
      have hdt : e.1 ≠ e.2 := fun h =>
        hdq (h ▸ List.mem_cons_self e.2 q)
      have htn : e.2 < g.n := hrb e.2 htr
      have hcurPlen : (bumpGo g f p increments).length = g.n := by
        rw [bumpGo_length, hn]
      have hdecomp : Dependents.bump g f increments =
          bumpGo g f q ((bumpGo g f p increments).set e.2
            (f e.2 (optionsAt g (bumpGo g f p increments) e.2))) := by
        unfold Dependents.bump
        rw [hsplit]
        unfold bumpGo
        rw [List.foldl_append, List.foldl_cons]
      set curP := bumpGo g f p increments with hcurP
      set opts := optionsAt g curP e.2 with hopts
      set newv := f e.2 opts with hnewv
      have hfinal_t : (Dependents.bump g f increments).getD e.2 none = newv := by
        rw [hdecomp, bumpGo_untouched g f e.2 q _ htq]
        exact getD_set_self _ _ _ (by omega)
      have hfinal_d : (Dependents.bump g f increments).getD e.1 none =
          curP.getD e.1 none := by
        have hdq2 : e.1 ∉ q := fun h => hdq (List.mem_cons_of_mem e.2 h)
        rw [hdecomp, bumpGo_untouched g f e.1 q _ hdq2]
        exact getD_set_ne _ _ _ _ (fun h => hdt h.symm)
      rw [hfinal_t, hfinal_d, hnewv]
      have hself : curP.getD e.2 none ∈ opts := by
        rw [hopts, optionsAt_mem]
        exact Or.inl rfl
      by_cases hcmp : irank (curP.getD e.2 none) < irank (curP.getD e.1 none)
      · have hdep : curP.getD e.1 none ∈ opts := by
          rw [hopts, optionsAt_mem]
          exact Or.inr ⟨e.1, (incoming_mem g e.1 e.2).mpr (by simpa using he),
            rfl, hcmp⟩
        exact hf e.2 opts _ hdep
      · have h2 := hf e.2 opts _ hself
        omega
    · -- dependency never visited: its slot is still unset
      have hfinal_d : (Dependents.bump g f increments).getD e.1 none =
          increments.getD e.1 none := by
        unfold Dependents.bump
        exact bumpGo_untouched g f e.1 _ increments hdT
      have hnone : increments.getD e.1 none = none := by
        by_contra hcon
        have hsome : (increments.getD e.1 none).isSome := by
          cases hk : increments.getD e.1 none with
          | none => exact absurd hk hcon
          | some v => rfl
        have hlt : e.1 < increments.length := by
          by_contra hge
          rw [List.getD_eq_default] at hcon
          · exact hcon rfl
          · omega
        have hseed := seedsOf_mem increments e.1 hlt hsome
        have := hcomplete e.1 (reach_seeds_subset g _ hval2 hseednd hseedb e.1 hseed)
        exact hdT this
      rw [hfinal_d, hnone]
      simp [irank]
  · intro p t q hsplit d hde hdT
    exact hTopo p t q hsplit d ((incoming_mem g d t).mpr hde)
      (hTsub d hdT)

/-- C7 (counterexample): with the decision function free to choose, the
claimed edge invariant fails as stated: on the two-node graph `0 → 1`
seeded with `[Minor, unset]`, a decision function keeping `Minor` at
node 0 but answering `none` at node 1 leaves the dependent below its
dependency. -/
theorem bump_propagates_cx :
    Dependents.bump ⟨2, [(0, 1)]⟩
      (fun node _ => if node = 0 then some .Minor else none)
      [some .Minor, none] = [some .Minor, none] ∧
    ¬ irank ((Dependents.bump ⟨2, [(0, 1)]⟩
        (fun node _ => if node = 0 then some .Minor else none)
        [some .Minor, none]).getD 0 none) ≤
      irank ((Dependents.bump ⟨2, [(0, 1)]⟩
        (fun node _ => if node = 0 then some .Minor else none)
        [some .Minor, none]).getD 1 none) := by decide

/-- Witness for C7: on the two-node graph `0 → 1` seeded with
`[Patch, unset]` and a decision function that always answers `Major`, the
edge invariant holds. -/
theorem bump_propagates_witness :
    irank ((Dependents.bump ⟨2, [(0, 1)]⟩ (fun _ _ => some .Major)
      [some .Patch, none]).getD 0 none) ≤
    irank ((Dependents.bump ⟨2, [(0, 1)]⟩ (fun _ _ => some .Major)
      [some .Patch, none]).getD 1 none) :=
  (bump_propagates ⟨2, [(0, 1)]⟩ [some .Patch, none] (fun _ _ => some .Major)
    (fun i => i) rfl (by decide) (by decide)
    (by
      intro node opts o ho
      show irank o ≤ irank (some .Major)
      cases o with
      | none => decide
      | some x => cases x <;> decide)).1 (0, 1) (by decide)

-- ===========================================================================
-- Cargo manifest rewrite (mono-project/src/project/manifest/cargo/versions.rs)
-- ===========================================================================

/-- A `toml_edit` item, at the level of detail the rewrite inspects:
strings, booleans, tables (regular or inline, both `table-like`), and any
other syntax (`vOther`, carrying its raw text). Formatting and comments
are preserved by the external `toml_edit` driver for any part of the
document tree left untouched, so AST equality of an entry models
byte-identical output for it. -/
inductive TItem where
  | vStr : String → TItem
  | vBool : Bool → TItem
  | vOther : String → TItem
  | vTable : List (String × TItem) → TItem

/-- `TableLike::get`: the value of the first entry with the given key. -/
def tget (l : List (String × TItem)) (k : String) : Option TItem :=
  match l with
  | [] => none
  | (k2, v) :: rest => if k2 = k then some v else tget rest k

/-- `TableLike::insert`: replace the value of an existing key in place,
or append a new entry. -/
def tinsert (l : List (String × TItem)) (k : String) (v : TItem) :
    List (String × TItem) :=
  match l with
  | [] => [(k, v)]
  | (k2, v2) :: rest =>
    if k2 = k then (k2, v) :: rest else (k2, v2) :: tinsert rest k v

/-- `get_mut` followed by an in-place mutation: apply `fn` to the value of
the first entry with the given key, leaving everything else untouched. -/
def modifyKey (l : List (String × TItem)) (k : String) (fn : TItem → TItem) :
    List (String × TItem) :=
  match l with
  | [] => []
  | (k2, v) :: rest =>
    if k2 = k then (k2, fn v) :: rest else (k2, v) :: modifyKey rest k fn

/-- `Versions::get`: the new version recorded for a bumped package name. -/
def vget (vs : List (String × Version)) (name : String) : Option Version :=
  match vs with
  | [] => none
  | (n, v) :: rest => if n = name then some v else vget rest name

/-- `semver::Version::to_string()`. -/
def verString (v : Version) : String :=
  toString v.major ++ "." ++ toString v.minor ++ "." ++ toString v.patch ++
    (if v.pre = "" then "" else "-" ++ v.pre) ++
    (if v.build = "" then "" else "+" ++ v.build)

/-- The `workspace = true` test of `update_dependency`: the item is
table-like and its `workspace` entry is the boolean `true`. -/
def wsTrue (item : TItem) : Bool :=
  match item with
  | .vTable t =>
    match tget t "workspace" with
    | some (.vBool true) => true
    | _ => false
  | _ => false

/-- `Versions::<Cargo>::update_dependency`: skip entries inheriting from
the workspace; replace a plain version string; set the `version` field of
a table-like entry; leave anything else untouched. -/
def update_dependency (item : TItem) (version : Version) : TItem :=
  if wsTrue item then item
  else
    match item with
    | .vStr _ => .vStr (verString version)
    | .vTable t => .vTable (tinsert t "version" (.vStr (verString version)))
    | other => other

/-- `Versions::<Cargo>::update_package_version`: when `[package]` is a
table whose `name` is a bumped package, set `[package].version`. -/
def update_package_version (vs : List (String × Version))
    (doc : List (String × TItem)) : List (String × TItem) :=
  match tget doc "package" with
  | some (.vTable pkg) =>
    (match tget pkg "name" with
     | some (.vStr name) =>
       (match vget vs name with
        | some ver =>
          modifyKey doc "package" (fun _ =>
            .vTable (tinsert pkg "version" (.vStr (verString ver))))
        | none => doc)
     | _ => doc)
  | _ => doc

/-- One pass of `iter_mut` over a dependency table: update every entry
whose key is a bumped package. -/
def updEntries (vs : List (String × Version))
    (t : List (String × TItem)) : List (String × TItem) :=
  t.map (fun e =>
    match vget vs e.1 with
    | some ver => (e.1, update_dependency e.2 ver)
    | none => e)

/-- `Versions::<Cargo>::update_workspace_dependencies`. -/
def update_workspace_dependencies (vs : List (String × Version))
    (doc : List (String × TItem)) : List (String × TItem) :=
  match tget doc "workspace" with
  | some (.vTable wt) =>
    (match tget wt "dependencies" with
     | some (.vTable dt) =>
       modifyKey doc "workspace" (fun _ =>
         .vTable (modifyKey wt "dependencies" (fun _ =>
           .vTable (updEntries vs dt))))
     | _ => doc)
  | _ => doc

/-- One section of `update_dependencies`. -/
def updSection (vs : List (String × Version))
    (doc : List (String × TItem)) (sec : String) :
    List (String × TItem) :=
  match tget doc sec with
  | some (.vTable dt) =>
    modifyKey doc sec (fun _ => .vTable (updEntries vs dt))
  | _ => doc

/-- `Versions::<Cargo>::update_dependencies`: `[dependencies]`, then
`[dev-dependencies]`. -/
def update_dependencies (vs : List (String × Version))
    (doc : List (String × TItem)) : List (String × TItem) :=
  updSection vs (updSection vs doc "dependencies") "dev-dependencies"

/-- `Versions::<Cargo>::update`: the three passes in source order. -/
def Versions.update (vs : List (String × Version))
    (doc : List (String × TItem)) : List (String × TItem) :=
  update_dependencies vs (update_workspace_dependencies vs
    (update_package_version vs doc))

theorem tget_modifyKey_ne (k2 k : String) (fn : TItem → TItem) (h : k2 ≠ k) :
    ∀ (l : List (String × TItem)), tget (modifyKey l k fn) k2 = tget l k2 := by
  intro l
  induction l with
  | nil => rfl
  | cons e rest ih =>
    obtain ⟨k3, v⟩ := e
    by_cases h3 : k3 = k
    · have h4 : ¬ k3 = k2 := by
        rw [h3]
        exact fun hc => h hc.symm
      simp only [modifyKey, if_pos h3, tget, if_neg h4]
    · simp only [modifyKey, if_neg h3, tget]
      by_cases h4 : k3 = k2
      · rw [if_pos h4, if_pos h4]
      · rw [if_neg h4, if_neg h4, ih]

theorem tget_modifyKey_self (k : String) (fn : TItem → TItem) :
    ∀ (l : List (String × TItem)),
      tget (modifyKey l k fn) k = (tget l k).map fn := by
  intro l
  induction l with
  | nil => rfl
  | cons e rest ih =>
    obtain ⟨k3, v⟩ := e
    by_cases h3 : k3 = k
    · simp only [modifyKey, if_pos h3, tget, if_pos h3]
      rfl
    · simp only [modifyKey, if_neg h3, tget, if_neg h3, ih]

theorem tget_tinsert_self (k : String) (v : TItem) :
    ∀ (l : List (String × TItem)), tget (tinsert l k v) k = some v := by
  intro l
  induction l with
  | nil => simp [tinsert, tget]
  | cons e rest ih =>
    obtain ⟨k3, v3⟩ := e
    by_cases h3 : k3 = k
    · simp only [tinsert, if_pos h3, tget, if_pos h3]
    · simp only [tinsert, if_neg h3, tget, if_neg h3, ih]

theorem tget_tinsert_ne (k2 k : String) (v : TItem) (h : k2 ≠ k) :
    ∀ (l : List (String × TItem)), tget (tinsert l k v) k2 = tget l k2 := by
  intro l
  induction l with
  | nil =>
    have h4 : ¬ k = k2 := fun hc => h hc.symm
    simp only [tinsert, tget, if_neg h4]
  | cons e rest ih =>
    obtain ⟨k3, v3⟩ := e
    by_cases h3 : k3 = k
    · have h4 : ¬ k3 = k2 := by
        rw [h3]
        exact fun hc => h hc.symm
      simp only [tinsert, if_pos h3, tget, if_neg h4]
    · simp only [tinsert, if_neg h3, tget]
      by_cases h4 : k3 = k2
      · rw [if_pos h4, if_pos h4]
      · rw [if_neg h4, if_neg h4, ih]

theorem tget_updEntries (vs : List (String × Version)) (k : String) :
    ∀ (t : List (String × TItem)),
      tget (updEntries vs t) k = (tget t k).map (fun item =>
        match vget vs k with
        | some ver => update_dependency item ver
        | none => item) := by
  intro t
  induction t with
  | nil => rfl
  | cons e rest ih =>
    obtain ⟨k3, v3⟩ := e
    simp only [updEntries, List.map_cons]
    unfold updEntries at ih
    by_cases h3 : k3 = k
    · subst h3
      cases hv : vget vs k3 with
      | none => simp only [hv, tget, if_pos rfl]; rfl
      | some ver => simp only [hv, tget, if_pos rfl]; rfl
    · cases hv : vget vs k3 with
      | none =>
        simp only [hv, tget, if_neg h3]
        exact ih
      | some ver =>
        simp only [hv, tget, if_neg h3]
        exact ih

theorem upv_frame (vs : List (String × Version)) (doc : List (String × TItem))
    (k : String) (h : k ≠ "package") :
    tget (update_package_version vs doc) k = tget doc k := by
  unfold update_package_version
  split
  · split
    · split
      · exact tget_modifyKey_ne k "package" _ h doc
      · rfl
    · rfl
  · rfl

theorem upv_package (vs : List (String × Version)) (doc : List (String × TItem))
    (pkg : List (String × TItem)) (nm : String) (ver : Version)
    (h1 : tget doc "package" = some (.vTable pkg))
    (h2 : tget pkg "name" = some (.vStr nm))
    (h3 : vget vs nm = some ver) :
    tget (update_package_version vs doc) "package" =
      some (.vTable (tinsert pkg "version" (.vStr (verString ver)))) := by
  unfold update_package_version
  simp only [h1, h2, h3]
  rw [tget_modifyKey_self, h1]
  rfl

theorem upv_unbumped (vs : List (String × Version)) (doc : List (String × TItem))
    (pkg : List (String × TItem)) (nm : String)
    (h1 : tget doc "package" = some (.vTable pkg))
    (h2 : tget pkg "name" = some (.vStr nm))
    (h3 : vget vs nm = none) :
    update_package_version vs doc = doc := by
  unfold update_package_version
  simp only [h1, h2, h3]

theorem uwd_frame (vs : List (String × Version)) (doc : List (String × TItem))
    (k : String) (h : k ≠ "workspace") :
    tget (update_workspace_dependencies vs doc) k = tget doc k := by
  unfold update_workspace_dependencies
  split
  · split
    · exact tget_modifyKey_ne k "workspace" _ h doc
    · rfl
  · rfl

theorem uwd_main (vs : List (String × Version)) (doc : List (String × TItem))
    (wt dt : List (String × TItem))
    (h1 : tget doc "workspace" = some (.vTable wt))
    (h2 : tget wt "dependencies" = some (.vTable dt)) :
    tget (update_workspace_dependencies vs doc) "workspace" =
      some (.vTable (modifyKey wt "dependencies"
        (fun _ => .vTable (updEntries vs dt)))) := by
  unfold update_workspace_dependencies
  simp only [h1, h2]
  rw [tget_modifyKey_self, h1]
  rfl

theorem updSection_frame (vs : List (String × Version))
    (doc : List (String × TItem)) (sec k : String) (h : k ≠ sec) :
    tget (updSection vs doc sec) k = tget doc k := by
  unfold updSection
  split
  · exact tget_modifyKey_ne k sec _ h doc
  · rfl

theorem updSection_main (vs : List (String × Version))
    (doc : List (String × TItem)) (sec : String) (dt : List (String × TItem))
    (h : tget doc sec = some (.vTable dt)) :
    tget (updSection vs doc sec) sec = some (.vTable (updEntries vs dt)) := by
  unfold updSection
  simp only [h]
  rw [tget_modifyKey_self, h]
  rfl

/-- C9: the Cargo rewrite sets `[package].version` to the new version
string whenever `[package].name` is a bumped package (leaving every other
package key unchanged), rewrites the entries of `[workspace.dependencies]`,
`[dependencies]` and `[dev-dependencies]` whose key is a bumped package —
in both the plain-string and inline-table `version` forms — leaves entries
carrying `workspace = true` identical, leaves entries of non-bumped
packages identical, and changes no other part of the document: every other
top-level key, every other key of the `workspace` table, and the `package`
table of a non-bumped package are untouched. -/
theorem cargo_update_rewrites (vs : List (String × Version))
    (doc : List (String × TItem)) :
    (∀ k, k ≠ "package" → k ≠ "workspace" → k ≠ "dependencies" →
      k ≠ "dev-dependencies" →
      tget (Versions.update vs doc) k = tget doc k) ∧
    (∀ pkg nm ver, tget doc "package" = some (.vTable pkg) →
      tget pkg "name" = some (.vStr nm) → vget vs nm = some ver →
      tget (Versions.update vs doc) "package" =
        some (.vTable (tinsert pkg "version" (.vStr (verString ver)))) ∧
      tget (tinsert pkg "version" (.vStr (verString ver))) "version" =
        some (.vStr (verString ver)) ∧
      (∀ k2, k2 ≠ "version" →
        tget (tinsert pkg "version" (.vStr (verString ver))) k2 = tget pkg k2)) ∧
    (∀ pkg nm, tget doc "package" = some (.vTable pkg) →
      tget pkg "name" = some (.vStr nm) → vget vs nm = none →
      tget (Versions.update vs doc) "package" = tget doc "package") ∧
    (∀ dt, tget doc "dependencies" = some (.vTable dt) →
      tget (Versions.update vs doc) "dependencies" =
        some (.vTable (updEntries vs dt))) ∧
    (∀ dt, tget doc "dev-dependencies" = some (.vTable dt) →
      tget (Versions.update vs doc) "dev-dependencies" =
        some (.vTable (updEntries vs dt))) ∧
    (∀ wt dt, tget doc "workspace" = some (.vTable wt) →
      tget wt "dependencies" = some (.vTable dt) →
      ∃ wt2, tget (Versions.update vs doc) "workspace" = some (.vTable wt2) ∧
        tget wt2 "dependencies" = some (.vTable (updEntries vs dt)) ∧
        ∀ k2, k2 ≠ "dependencies" → tget wt2 k2 = tget wt k2) ∧
    (∀ t k, tget (updEntries vs t) k = (tget t k).map (fun item =>
      match vget vs k with
      | some ver => update_dependency item ver
      | none => item)) ∧
    (∀ item ver,
      (wsTrue item = true → update_dependency item ver = item) ∧
      (∀ s, item = .vStr s →
        update_dependency item ver = .vStr (verString ver)) ∧
      (∀ t, item = .vTable t → wsTrue item = false →
        update_dependency item ver =
          .vTable (tinsert t "version" (.vStr (verString ver)))) ∧
      (∀ s, item = .vOther s → update_dependency item ver = item) ∧
      (∀ b, item = .vBool b → update_dependency item ver = item)) := by
  refine ⟨?_, ?_, ?_, ?_, ?_, ?_, ?_, ?_⟩
  · intro k h1 h2 h3 h4
    unfold Versions.update update_dependencies
    rw [updSection_frame _ _ _ _ h4, updSection_frame _ _ _ _ h3,
      uwd_frame _ _ _ h2, upv_frame _ _ _ h1]
  · intro pkg nm ver h1 h2 h3
    refine ⟨?_, tget_tinsert_self _ _ _, fun k2 hk2 => tget_tinsert_ne _ _ _ hk2 _⟩
    unfold Versions.update update_dependencies
    rw [updSection_frame _ _ _ _ (by decide), updSection_frame _ _ _ _ (by decide),
      uwd_frame _ _ _ (by decide)]
    exact upv_package vs doc pkg nm ver h1 h2 h3
  · intro pkg nm h1 h2 h3
    unfold Versions.update update_dependencies
    rw [updSection_frame _ _ _ _ (by decide), updSection_frame _ _ _ _ (by decide),
      uwd_frame _ _ _ (by decide), upv_unbumped vs doc pkg nm h1 h2 h3]
  · intro dt h1
    unfold Versions.update update_dependencies
    rw [updSection_frame _ _ _ _ (by decide)]
    apply updSection_main
    rw [uwd_frame _ _ _ (by decide), upv_frame _ _ _ (by decide)]
    exact h1
  · intro dt h1
    apply updSection_main
    rw [updSection_frame _ _ _ _ (by decide), uwd_frame _ _ _ (by decide),
      upv_frame _ _ _ (by decide)]
    exact h1
  · intro wt dt h1 h2
    refine ⟨modifyKey wt "dependencies" (fun _ => .vTable (updEntries vs dt)),
      ?_, ?_, ?_⟩
    · unfold Versions.update update_dependencies
      rw [updSection_frame _ _ _ _ (by decide), updSection_frame _ _ _ _ (by decide)]
      apply uwd_main
      · rw [upv_frame _ _ _ (by decide)]
        exact h1
      · exact h2
    · rw [tget_modifyKey_self, h2]
      rfl
    · intro k2 hk2
      exact tget_modifyKey_ne _ _ _ hk2 wt
  · intro t k
    exact tget_updEntries vs k t
  · intro item ver
    refine ⟨?_, ?_, ?_, ?_, ?_⟩
    · intro hws
      unfold update_dependency
      rw [if_pos hws]
    · rintro s rfl
      rfl
    · rintro t rfl hws
      unfold update_dependency
      rw [if_neg (by rw [hws]; exact fun h => nomatch h)]
    · rintro s rfl
      rfl
    · rintro b rfl
      rfl

/-- Witness for C9: bumping `mono` to `0.2.0` rewrites the `version` of a
concrete manifest's `[package]` table in place. -/
theorem cargo_update_rewrites_witness :
    tget (Versions.update [("mono", ⟨0, 2, 0, "", ""⟩)]
        [("package", .vTable [("name", .vStr "mono"),
          ("version", .vStr "0.1.0")])]) "package" =
      some (.vTable [("name", .vStr "mono"),
        ("version", .vStr (verString ⟨0, 2, 0, "", ""⟩))]) :=
  ((cargo_update_rewrites [("mono", ⟨0, 2, 0, "", ""⟩)]
      [("package", .vTable [("name", .vStr "mono"),
        ("version", .vStr "0.1.0")])]).2.1
    [("name", .vStr "mono"), ("version", .vStr "0.1.0")] "mono"
    ⟨0, 2, 0, "", ""⟩ rfl rfl rfl).1
